import Mathlib

/-
Verification of the pg2arrow columnar accumulator and FlatBuffer encoder.

The definitions below are a shallow embedding of the C sources:
  pg2arrow.h       (SQLbuffer and its inline routines, alignment macros)
  query.c          (put_value handlers, pgsql_append_results row loop)
  arrow_types.c    (put_decimal_value, buffer-vector setup)
  arrow_write.c / arrow_read.c
                   (FlatBuffer table builder, flatten, reader, message framing)
Machine memory is modelled as total byte functions (Nat → Nat) with bytes in
0..255, buffer growth exactly mirrors sql_buffer_expand (start 2 MiB, double
on demand), and multi-byte values are stored little-endian as on the x86
host the program targets.
-/

namespace Pg2Arrow

/-! Alignment macros.  TYPEALIGN(a, len) rounds len up to a multiple of a
(postgres.h); ARROWALIGN aligns to 64, MAXALIGN to 8, INTALIGN to 4. -/

def TYPEALIGN (a len : Nat) : Nat := ((len + a - 1) / a) * a

def ARROWALIGN (len : Nat) : Nat := TYPEALIGN 64 len

def MAXALIGN (len : Nat) : Nat := TYPEALIGN 8 len

def INTALIGN (len : Nat) : Nat := TYPEALIGN 4 len

/-- BITMAPLEN(NATTS) = ((NATTS) + 7) / 8, the number of bytes covering that
many bits. -/
def BITMAPLEN (natts : Nat) : Nat := (natts + 7) / 8

theorem le_TYPEALIGN (a len : Nat) (ha : 0 < a) : len ≤ TYPEALIGN a len := by
  unfold TYPEALIGN
  rw [Nat.mul_comm]
  have h1 : (len + a - 1) % a < a := Nat.mod_lt _ ha
  have h3 := Nat.div_add_mod (len + a - 1) a
  generalize a * ((len + a - 1) / a) = m at h3 ⊢
  omega

theorem TYPEALIGN_dvd (a len : Nat) : a ∣ TYPEALIGN a len := by
  unfold TYPEALIGN
  exact Dvd.intro_left _ rfl

theorem TYPEALIGN_zero (a : Nat) (ha : 0 < a) : TYPEALIGN a 0 = 0 := by
  unfold TYPEALIGN
  have : (a - 1) / a = 0 := Nat.div_eq_of_lt (by omega)
  simp [this]

/-! Little-endian byte codecs.  `natToLE w x` is the w-byte little-endian
image of x (what memcpy of a host integer produces), `readLE f pos w`
decodes w bytes starting at pos, and `beToNat` decodes network-order
(big-endian) wire bytes as ntohs/ntohl/manual shifts do. -/

def natToLE : Nat → Nat → List Nat
  | 0, _ => []
  | w + 1, x => x % 256 :: natToLE w (x / 256)

def readLE (f : Nat → Nat) (pos : Nat) : Nat → Nat
  | 0 => 0
  | w + 1 => f pos % 256 + 256 * readLE f (pos + 1) w

def beToNat (bs : List Nat) : Nat := bs.foldl (fun a b => 256 * a + b % 256) 0

@[simp] theorem natToLE_length (w x : Nat) : (natToLE w x).length = w := by
  induction w generalizing x with
  | zero => rfl
  | succ w ih => simp [natToLE, ih]

/-- Overwrite, in the byte function f, the src.length bytes starting at pos. -/
def writeBytes (f : Nat → Nat) (pos : Nat) (src : List Nat) : Nat → Nat :=
  fun i => if pos ≤ i ∧ i < pos + src.length then src.getD (i - pos) 0 else f i

theorem writeBytes_lt (f : Nat → Nat) (pos : Nat) (src : List Nat) (i : Nat)
    (h : i < pos) : writeBytes f pos src i = f i := by
  unfold writeBytes
  have : ¬ (pos ≤ i ∧ i < pos + src.length) := by omega
  simp [this]

theorem writeBytes_ge (f : Nat → Nat) (pos : Nat) (src : List Nat) (i : Nat)
    (h : pos + src.length ≤ i) : writeBytes f pos src i = f i := by
  unfold writeBytes
  have : ¬ (pos ≤ i ∧ i < pos + src.length) := by omega
  simp [this]

theorem writeBytes_at (f : Nat → Nat) (pos : Nat) (src : List Nat) (k : Nat)
    (h : k < src.length) : writeBytes f pos src (pos + k) = src.getD k 0 := by
  unfold writeBytes
  have : pos ≤ pos + k ∧ pos + k < pos + src.length := by omega
  simp [this]

theorem readLE_congr (f g : Nat → Nat) (pos w : Nat)
    (h : ∀ k, k < w → f (pos + k) = g (pos + k)) :
    readLE f pos w = readLE g pos w := by
  induction w generalizing pos with
  | zero => rfl
  | succ w ih =>
    unfold readLE
    have h0 : f pos = g pos := by have := h 0 (by omega); simpa using this
    rw [h0, ih (pos + 1) fun k hk => by
      have := h (k + 1) (by omega)
      rw [show pos + 1 + k = pos + (k + 1) by omega]
      exact this]

theorem readLE_of_natToLE (f : Nat → Nat) (pos w x : Nat) (hx : x < 2 ^ (8 * w))
    (h : ∀ k, k < w → f (pos + k) = (natToLE w x).getD k 0) :
    readLE f pos w = x := by
  induction w generalizing pos x with
  | zero => unfold readLE; omega
  | succ w ih =>
    unfold readLE
    have h0 : f pos = x % 256 := by
      have := h 0 (by omega)
      simpa [natToLE] using this
    have hrec : readLE f (pos + 1) w = x / 256 := by
      refine ih (pos + 1) (x / 256) ?_ ?_
      · have he : 2 ^ (8 * (w + 1)) = 2 ^ (8 * w) * 256 := by ring
        rw [he] at hx
        exact Nat.div_lt_of_lt_mul (by omega)
      · intro k hk
        have := h (k + 1) (by omega)
        rw [show pos + 1 + k = pos + (k + 1) by omega]
        simpa [natToLE] using this
    rw [hrec, h0]
    omega

/-! SQLbuffer (pg2arrow.h).  ptr is a byte function, usage the number of
bytes in use, length the mmap'ed capacity; ptr == NULL is represented by
length = 0 (sql_buffer_init sets both to 0 and expand always leaves a
non-zero length). -/

structure SQLbuffer where
  bytes : Nat → Nat
  usage : Nat
  length : Nat

def sql_buffer_init : SQLbuffer := ⟨fun _ => 0, 0, 0⟩

/-- The doubling loop of sql_buffer_expand: while (length < required)
length *= 2.  The loop is written with a structural fuel so that it
computes; for any non-zero starting length, required steps of fuel are more
than the loop can ever use, so the fuel never runs out. -/
def growLengthAux : Nat → Nat → Nat → Nat
  | 0, len, _ => len
  | fuel + 1, len, required =>
    if len < required then growLengthAux fuel (2 * len) required else len

def growLength (len required : Nat) : Nat := growLengthAux required len required

theorem growLengthAux_ge (fuel : Nat) : ∀ len required : Nat, len ≠ 0 →
    required ≤ 2 ^ fuel * len → required ≤ growLengthAux fuel len required := by
  induction fuel with
  | zero => intro len required _ h; simpa using h
  | succ fuel ih =>
    intro len required hlen h
    unfold growLengthAux
    split
    · refine ih (2 * len) required (by omega) ?_
      calc required ≤ 2 ^ (fuel + 1) * len := h
        _ = 2 ^ fuel * (2 * len) := by ring
    · omega

theorem growLength_ge (len required : Nat) (h : len ≠ 0) :
    required ≤ growLength len required := by
  refine growLengthAux_ge required len required h ?_
  calc required ≤ 2 ^ required := Nat.le_of_lt (Nat.lt_two_pow required)
    _ = 2 ^ required * 1 := by ring
    _ ≤ 2 ^ required * len := Nat.mul_le_mul_left _ (by omega)

def sql_buffer_expand (buf : SQLbuffer) (required : Nat) : SQLbuffer :=
  if buf.length < required then
    if buf.length = 0 then
      -- mmap branch: start from 2MB, usage reset to 0 (it is already 0 there)
      { buf with usage := 0, length := growLength (1 <<< 21) required }
    else
      { buf with length := growLength (2 * buf.length) required }
  else buf

def sql_buffer_append (buf : SQLbuffer) (src : List Nat) : SQLbuffer :=
  let buf := sql_buffer_expand buf (buf.usage + src.length)
  { buf with
    bytes := writeBytes buf.bytes buf.usage src,
    usage := buf.usage + src.length }

def sql_buffer_append_zero (buf : SQLbuffer) (len : Nat) : SQLbuffer :=
  sql_buffer_append buf (List.replicate len 0)

def sql_buffer_setbit (buf : SQLbuffer) (index : Nat) : SQLbuffer :=
  let buf := sql_buffer_expand buf (BITMAPLEN (index + 1))
  { buf with
    bytes := fun j =>
      if j = index / 8 then buf.bytes (index / 8) ||| 2 ^ (index % 8)
      else buf.bytes j }

def sql_buffer_clrbit (buf : SQLbuffer) (index : Nat) : SQLbuffer :=
  let buf := sql_buffer_expand buf (BITMAPLEN (index + 1))
  { buf with
    bytes := fun j =>
      if j = index / 8 then buf.bytes (index / 8) &&& (255 - 2 ^ (index % 8))
      else buf.bytes j }

def sql_buffer_clear (buf : SQLbuffer) : SQLbuffer := { buf with usage := 0 }

/-- Read bit index of a bit buffer, the way the null bitmap is consumed:
byte index>>3, bit index&7. -/
def sql_buffer_getbit (buf : SQLbuffer) (index : Nat) : Bool :=
  Nat.testBit (buf.bytes (index / 8)) (index % 8)

theorem expand_bytes (buf : SQLbuffer) (r : Nat) :
    (sql_buffer_expand buf r).bytes = buf.bytes := by
  unfold sql_buffer_expand; split <;> [split;skip] <;> rfl

theorem expand_usage (buf : SQLbuffer) (r : Nat) (h : buf.usage ≤ buf.length) :
    (sql_buffer_expand buf r).usage = buf.usage := by
  unfold sql_buffer_expand
  split
  · split
    · simp; omega
    · rfl
  · rfl

theorem expand_length_ge (buf : SQLbuffer) (r : Nat) :
    r ≤ (sql_buffer_expand buf r).length := by
  unfold sql_buffer_expand
  split
  · split
    · exact growLength_ge _ _ (by simp [Nat.one_shiftLeft])
    · exact growLength_ge _ _ (by omega)
  · omega

/-! Column accumulator (query.c).  A cell delivered by the row source is
either null or a list of wire bytes in network order.  ColKind selects the
put_value handler that attribute_assign_arrow_type installs for the data
types whose handlers are implemented (decimal, array and composite Elog in
this revision of query.c and are not ingestible). -/

abbrev Cell := Option (List Nat)

inductive ColKind where
  | inline8 | inline16 | inline32 | inline64 | date | timestamp | variable
deriving DecidableEq

structure SQLattribute where
  kind : ColKind
  nullcount : Nat
  nullmap : SQLbuffer
  values : SQLbuffer
  extra : SQLbuffer

def initAttr (k : ColKind) : SQLattribute :=
  ⟨k, 0, sql_buffer_init, sql_buffer_init, sql_buffer_init⟩

/-- Usage returned by the fixed-width handlers:
ARROWALIGN(values.usage), plus ARROWALIGN(nullmap.usage) when nullcount>0. -/
def inlineUsage (a : SQLattribute) : Nat :=
  ARROWALIGN a.values.usage +
    (if a.nullcount > 0 then ARROWALIGN a.nullmap.usage else 0)

/-- put_inline_8b/16b/32b/64b_value and the value branch of put_date:
null appends width zero bytes and clears the bit; non-null byteswaps the
wire bytes to host order and appends them. -/
def put_inline_value (width : Nat) (a : SQLattribute) (row_index : Nat)
    (cell : Cell) : SQLattribute × Nat :=
  match cell with
  | none =>
    let a := { a with
      nullcount := a.nullcount + 1,
      nullmap := sql_buffer_clrbit a.nullmap row_index,
      values := sql_buffer_append_zero a.values width }
    (a, inlineUsage a)
  | some bs =>
    let value := beToNat (bs.take width)
    let a := { a with
      nullmap := sql_buffer_setbit a.nullmap row_index,
      values := sql_buffer_append a.values (natToLE width value) }
    (a, inlineUsage a)

/-- PostgreSQL epoch constants (datatype/timestamp.h). -/
def UNIX_EPOCH_JDATE : Nat := 2440588

def POSTGRES_EPOCH_JDATE : Nat := 2451545

def USECS_PER_DAY : Nat := 86400000000

/-- put_date_value: 32-bit byteswap then value -= UNIX_EPOCH_JDATE
(int32 two's-complement arithmetic). -/
def put_date_value (a : SQLattribute) (row_index : Nat) (cell : Cell) :
    SQLattribute × Nat :=
  match cell with
  | none =>
    let a := { a with
      nullcount := a.nullcount + 1,
      nullmap := sql_buffer_clrbit a.nullmap row_index,
      values := sql_buffer_append_zero a.values 4 }
    (a, inlineUsage a)
  | some bs =>
    let value := (beToNat (bs.take 4) + (2 ^ 32 - UNIX_EPOCH_JDATE)) % 2 ^ 32
    let a := { a with
      nullmap := sql_buffer_setbit a.nullmap row_index,
      values := sql_buffer_append a.values (natToLE 4 value) }
    (a, inlineUsage a)

/-- put_timestamp_value: 64-bit byteswap, rebase the PostgreSQL epoch to the
UNIX epoch, append 8 bytes.  NOTE: the C function computes the usage sum
into a local variable and then executes a literal return 0. -/
def put_timestamp_value (a : SQLattribute) (row_index : Nat) (cell : Cell) :
    SQLattribute × Nat :=
  match cell with
  | none =>
    let a := { a with
      nullcount := a.nullcount + 1,
      nullmap := sql_buffer_clrbit a.nullmap row_index,
      values := sql_buffer_append_zero a.values 8 }
    (a, 0)
  | some bs =>
    let value := (beToNat (bs.take 8) +
      (POSTGRES_EPOCH_JDATE - UNIX_EPOCH_JDATE) * USECS_PER_DAY) % 2 ^ 64
    let a := { a with
      nullmap := sql_buffer_setbit a.nullmap row_index,
      values := sql_buffer_append a.values (natToLE 8 value) }
    (a, 0)

/-- Usage returned by put_variable_value: ARROWALIGN(values.usage) +
ARROWALIGN(extra.usage), plus the nullmap term when nullcount>0. -/
def varUsage (a : SQLattribute) : Nat :=
  ARROWALIGN a.values.usage + ARROWALIGN a.extra.usage +
    (if a.nullcount > 0 then ARROWALIGN a.nullmap.usage else 0)

/-- put_variable_value: at row 0 append the 32-bit sentinel offset 0; null
appends the current extra.usage as the next offset without heap bytes;
non-null appends the payload to extra and then the new extra.usage. -/
def put_variable_value (a : SQLattribute) (row_index : Nat) (cell : Cell) :
    SQLattribute × Nat :=
  let vals := if row_index = 0 then sql_buffer_append_zero a.values 4
              else a.values
  match cell with
  | none =>
    let a := { a with
      nullcount := a.nullcount + 1,
      nullmap := sql_buffer_clrbit a.nullmap row_index,
      values := sql_buffer_append vals (natToLE 4 a.extra.usage) }
    (a, varUsage a)
  | some bs =>
    let extra := sql_buffer_append a.extra bs
    let a := { a with
      nullmap := sql_buffer_setbit a.nullmap row_index,
      extra := extra,
      values := sql_buffer_append vals (natToLE 4 extra.usage) }
    (a, varUsage a)

/-- Dispatch through the attribute's installed put_value handler. -/
def put_value (a : SQLattribute) (row_index : Nat) (cell : Cell) :
    SQLattribute × Nat :=
  match a.kind with
  | .inline8 => put_inline_value 1 a row_index cell
  | .inline16 => put_inline_value 2 a row_index cell
  | .inline32 => put_inline_value 4 a row_index cell
  | .inline64 => put_inline_value 8 a row_index cell
  | .date => put_date_value a row_index cell
  | .timestamp => put_timestamp_value a row_index cell
  | .variable => put_variable_value a row_index cell

/-- Append a sequence of cells at consecutive row indices (one batch worth
of put_value calls on a single column). -/
def putList (a : SQLattribute) (idx : Nat) : List Cell → SQLattribute
  | [] => a
  | c :: cs => putList (put_value a idx c).1 (idx + 1) cs

/-! Row ingestion (pgsql_append_results in query.c) over a whole table. -/

abbrev Row := List Cell

structure SQLtable where
  segment_sz : Nat
  nitems : Nat
  attrs : List SQLattribute

/-- One iteration of the per-field loop: put_value for every column at row
index nitems, summing the returned usages. -/
def appendRowValues : List SQLattribute → Nat → Row → List SQLattribute × Nat
  | a :: as, idx, c :: cs =>
    let p := put_value a idx c
    let q := appendRowValues as idx cs
    (p.1 :: q.1, p.2 + q.2)
  | as, _, _ => (as, 0)

/-- The fixup loop run before a flush: decrement nullcount on every column
whose cell in the overflowing row was null. -/
def fixupNullCount : List SQLattribute → Row → List SQLattribute
  | a :: as, c :: cs =>
    (if c.isNone then { a with nullcount := a.nullcount - 1 } else a) ::
      fixupNullCount as cs
  | as, _ => as

/-- pgsql_clear_attribute: reset nullcount and the usage of each buffer
(capacity and old bytes are retained). -/
def pgsql_clear_attribute (a : SQLattribute) : SQLattribute :=
  { a with
    nullcount := 0,
    nullmap := sql_buffer_clear a.nullmap,
    values := sql_buffer_clear a.values,
    extra := sql_buffer_clear a.extra }

/-- What a pgsql_writeout_buffer flush publishes for the batch: the batch
row count (table->nitems) and each column's nullcount at writeout time. -/
structure EmittedBatch where
  length : Nat
  nullcounts : List Nat
deriving DecidableEq

def rowTooLargeMsg : String := "A result row is larger than size of record batch!!"

/-- Body of the per-tuple loop of pgsql_append_results, including the
retry: label.  Appends the row; if the summed usage exceeds segment_sz it
either dies (empty batch) or unwinds the nullcounts, writes the batch out,
clears every column and retries the same row. -/
def processRowAux (table : SQLtable) (row : Row) (emitted : Option EmittedBatch) :
    Except String (SQLtable × Option EmittedBatch) :=
  let p := appendRowValues table.attrs table.nitems row
  if p.2 > table.segment_sz then
    if table.nitems = 0 then
      .error rowTooLargeMsg
    else
      let attrs2 := fixupNullCount p.1 row
      let batch : EmittedBatch := ⟨table.nitems, attrs2.map (·.nullcount)⟩
      processRowAux ⟨table.segment_sz, 0, attrs2.map pgsql_clear_attribute⟩
        row (some batch)
  else
    .ok (⟨table.segment_sz, table.nitems + 1, p.1⟩, emitted)
termination_by table.nitems
decreasing_by simp_wf; omega

/-- Ingest one row, reporting the batch flushed on the way if any. -/
def processRow (table : SQLtable) (row : Row) :
    Except String (SQLtable × Option EmittedBatch) :=
  processRowAux table row none

/-- A sequence of setbit/clrbit calls (true = setbit), the only operations a
null bitmap ever sees. -/
def applyBitOps (buf : SQLbuffer) : List (Bool × Nat) → SQLbuffer
  | [] => buf
  | op :: ops =>
    applyBitOps
      (if op.1 then sql_buffer_setbit buf op.2 else sql_buffer_clrbit buf op.2)
      ops

/-! Lemmas about the bit operations. -/

theorem testBit_mask255 (k m : Nat) (hk : k < 8) (hm : m < 8) :
    Nat.testBit (255 - 2 ^ k) m = decide (¬ m = k) := by
  interval_cases k <;> interval_cases m <;> decide

theorem getbit_setbit (b : SQLbuffer) (i j : Nat) :
    sql_buffer_getbit (sql_buffer_setbit b i) j =
      if j = i then true else sql_buffer_getbit b j := by
  unfold sql_buffer_setbit sql_buffer_getbit
  simp only [expand_bytes]
  by_cases hd : j / 8 = i / 8
  · rw [if_pos hd, Nat.testBit_lor]
    by_cases hji : j = i
    · subst hji
      simp [Nat.testBit_two_pow]
    · have hm : ¬ (i % 8 = j % 8) := by omega
      rw [Nat.testBit_two_pow]
      simp [hm, hji, hd]
  · have hji : ¬ j = i := by omega
    simp [hd, hji]

theorem getbit_clrbit (b : SQLbuffer) (i j : Nat) :
    sql_buffer_getbit (sql_buffer_clrbit b i) j =
      if j = i then false else sql_buffer_getbit b j := by
  unfold sql_buffer_clrbit sql_buffer_getbit
  simp only [expand_bytes]
  by_cases hd : j / 8 = i / 8
  · rw [if_pos hd, Nat.testBit_land,
        testBit_mask255 (i % 8) (j % 8) (by omega) (by omega)]
    by_cases hji : j = i
    · subst hji; simp
    · have hm : ¬ (j % 8 = i % 8) := by omega
      simp [hm, hji, hd]
  · have hji : ¬ j = i := by omega
    simp [hd, hji]

theorem setbit_usage (buf : SQLbuffer) (i : Nat) (h : buf.usage ≤ buf.length) :
    (sql_buffer_setbit buf i).usage = buf.usage := by
  unfold sql_buffer_setbit
  exact expand_usage buf _ h

theorem clrbit_usage (buf : SQLbuffer) (i : Nat) (h : buf.usage ≤ buf.length) :
    (sql_buffer_clrbit buf i).usage = buf.usage := by
  unfold sql_buffer_clrbit
  exact expand_usage buf _ h

theorem applyBitOps_usage (ops : List (Bool × Nat)) (buf : SQLbuffer)
    (h : buf.usage = 0) : (applyBitOps buf ops).usage = 0 := by
  induction ops generalizing buf with
  | nil => exact h
  | cons op ops ih =>
    unfold applyBitOps
    refine ih _ ?_
    split
    · rw [setbit_usage buf _ (by omega)]; exact h
    · rw [clrbit_usage buf _ (by omega)]; exact h

/-! Lemmas about the put_value handlers, uniform over every column kind. -/

theorem put_value_nullcount (a : SQLattribute) (idx : Nat) (c : Cell) :
    ((put_value a idx c).1).nullcount =
      a.nullcount + (if c.isSome then 0 else 1) := by
  unfold put_value
  cases hk : a.kind <;> cases c <;>
    simp [put_inline_value, put_date_value, put_timestamp_value,
      put_variable_value]

theorem put_value_getbit (a : SQLattribute) (idx : Nat) (c : Cell) (j : Nat) :
    sql_buffer_getbit ((put_value a idx c).1).nullmap j =
      if j = idx then c.isSome else sql_buffer_getbit a.nullmap j := by
  unfold put_value
  cases hk : a.kind <;> cases c <;>
    simp [put_inline_value, put_date_value, put_timestamp_value,
      put_variable_value, getbit_setbit, getbit_clrbit]

theorem putList_spec (cells : List Cell) : ∀ (a : SQLattribute) (idx : Nat),
    (∀ j, j < idx →
      sql_buffer_getbit (putList a idx cells).nullmap j =
        sql_buffer_getbit a.nullmap j) ∧
    (∀ k, k < cells.length →
      sql_buffer_getbit (putList a idx cells).nullmap (idx + k) =
        (cells.getD k none).isSome) ∧
    (putList a idx cells).nullcount =
      a.nullcount + (cells.filter (·.isNone)).length := by
  induction cells with
  | nil =>
    intro a idx
    refine ⟨fun j _ => rfl, fun k hk => absurd hk (by simp), by simp [putList]⟩
  | cons c cs ih =>
    intro a idx
    obtain ⟨ih1, ih2, ih3⟩ := ih (put_value a idx c).1 (idx + 1)
    have hstep : putList a idx (c :: cs) = putList (put_value a idx c).1 (idx + 1) cs := rfl
    refine ⟨?_, ?_, ?_⟩
    · intro j hj
      rw [hstep, ih1 j (by omega), put_value_getbit]
      simp [show ¬ j = idx by omega]
    · intro k hk
      cases k with
      | zero =>
        rw [hstep]
        simp only [Nat.add_zero]
        rw [ih1 idx (by omega), put_value_getbit]
        simp
      | succ k' =>
        rw [hstep, show idx + (k' + 1) = (idx + 1) + k' by omega,
          ih2 k' (by simpa using hk)]
        simp
    · rw [hstep, ih3, put_value_nullcount]
      cases c <;> (simp [List.filter]; try omega)

theorem fixup_append_nullcounts : ∀ (attrs : List SQLattribute) (idx : Nat)
    (row : Row), row.length = attrs.length →
    (fixupNullCount (appendRowValues attrs idx row).1 row).map (·.nullcount)
      = attrs.map (·.nullcount)
  | [], _, [], _ => rfl
  | [], _, _ :: _, h => by simp at h
  | _ :: _, _, [], h => by simp at h
  | a :: as, idx, c :: cs, h => by
    simp only [appendRowValues, fixupNullCount, List.map]
    rw [fixup_append_nullcounts as idx cs (by simpa using h)]
    cases c with
    | none =>
      simp only [Option.isNone_none, if_pos]
      have := put_value_nullcount a idx none
      simp only [Option.isSome_none, Bool.false_eq_true, if_false] at this
      simp [this]
    | some bs =>
      simp only [Option.isNone_some, Bool.false_eq_true, if_false]
      have := put_value_nullcount a idx (some bs)
      simp only [Option.isSome_some, if_pos] at this
      simp [this]

/-! Varlena (Utf8/Binary) offset invariants. -/

/-- Total heap bytes consumed by a cell sequence: the payload sizes of the
non-null cells. -/
def heapBytes : List Cell → Nat
  | [] => 0
  | none :: cs => heapBytes cs
  | some bs :: cs => bs.length + heapBytes cs

theorem heapBytes_append (l1 l2 : List Cell) :
    heapBytes (l1 ++ l2) = heapBytes l1 + heapBytes l2 := by
  induction l1 with
  | nil => simp [heapBytes]
  | cons c cs ih => cases c <;> simp [heapBytes, ih] <;> omega

theorem heapBytes_take_le (cells : List Cell) (i : Nat) :
    heapBytes (cells.take i) ≤ heapBytes cells := by
  conv_rhs => rw [← List.take_append_drop i cells]
  rw [heapBytes_append]
  omega

theorem append_usage (buf : SQLbuffer) (src : List Nat)
    (h : buf.usage ≤ buf.length) :
    (sql_buffer_append buf src).usage = buf.usage + src.length := by
  unfold sql_buffer_append
  simp [expand_usage buf _ h]

theorem append_wf (buf : SQLbuffer) (src : List Nat)
    (h : buf.usage ≤ buf.length) :
    (sql_buffer_append buf src).usage ≤ (sql_buffer_append buf src).length := by
  unfold sql_buffer_append
  have h1 := expand_usage buf (buf.usage + src.length) h
  have h2 := expand_length_ge buf (buf.usage + src.length)
  simp only []
  omega

theorem append_bytes_lt (buf : SQLbuffer) (src : List Nat) (j : Nat)
    (h : buf.usage ≤ buf.length) (hj : j < buf.usage) :
    (sql_buffer_append buf src).bytes j = buf.bytes j := by
  unfold sql_buffer_append
  simp only [expand_bytes]
  rw [writeBytes_lt]
  rw [expand_usage buf _ h]
  omega

theorem append_bytes_at (buf : SQLbuffer) (src : List Nat) (k : Nat)
    (h : buf.usage ≤ buf.length) (hk : k < src.length) :
    (sql_buffer_append buf src).bytes (buf.usage + k) = src.getD k 0 := by
  unfold sql_buffer_append
  simp only [expand_bytes]
  rw [show buf.usage + k =
    (sql_buffer_expand buf (buf.usage + src.length)).usage + k by
      rw [expand_usage buf _ h]]
  exact writeBytes_at _ _ _ _ hk

theorem natToLE_zero_getD (w k : Nat) : (natToLE w 0).getD k 0 = 0 := by
  induction w generalizing k with
  | zero => simp [natToLE]
  | succ w ih =>
    cases k with
    | zero => rfl
    | succ k => simpa [natToLE] using ih k

theorem replicate_getD_zero (w k : Nat) :
    (List.replicate w (0 : Nat)).getD k 0 = 0 := by
  induction w generalizing k with
  | zero => simp
  | succ w ih =>
    cases k with
    | zero => rfl
    | succ k => simpa [List.replicate] using ih k

/-- The varlena-column invariant after ingesting cells at row indices
0..n-1: the offsets buffer (values) holds n+1 32-bit slots, the heap usage
is the accumulated non-null payload size, and slot i decodes to the heap
usage right after row i-1. -/
def VarInv (cells : List Cell) (a : SQLattribute) : Prop :=
  a.values.usage = 4 * (cells.length + 1) ∧
  a.extra.usage = heapBytes cells ∧
  a.values.usage ≤ a.values.length ∧
  a.extra.usage ≤ a.extra.length ∧
  ∀ i, i ≤ cells.length → heapBytes (cells.take i) < 2 ^ 32 →
    readLE a.values.bytes (4 * i) 4 = heapBytes (cells.take i)

theorem put_variable_none_eq (a : SQLattribute) (idx : Nat) (h : idx ≠ 0) :
    (put_variable_value a idx none).1 = { a with
      nullcount := a.nullcount + 1,
      nullmap := sql_buffer_clrbit a.nullmap idx,
      values := sql_buffer_append a.values (natToLE 4 a.extra.usage) } := by
  unfold put_variable_value
  rw [if_neg h]

theorem put_variable_some_eq (a : SQLattribute) (idx : Nat) (bs : List Nat)
    (h : idx ≠ 0) :
    (put_variable_value a idx (some bs)).1 = { a with
      nullmap := sql_buffer_setbit a.nullmap idx,
      extra := sql_buffer_append a.extra bs,
      values := sql_buffer_append a.values
        (natToLE 4 (sql_buffer_append a.extra bs).usage) } := by
  unfold put_variable_value
  rw [if_neg h]

theorem put_variable_none0_eq (a : SQLattribute) :
    (put_variable_value a 0 none).1 = { a with
      nullcount := a.nullcount + 1,
      nullmap := sql_buffer_clrbit a.nullmap 0,
      values := sql_buffer_append (sql_buffer_append_zero a.values 4)
        (natToLE 4 a.extra.usage) } := rfl

theorem put_variable_some0_eq (a : SQLattribute) (bs : List Nat) :
    (put_variable_value a 0 (some bs)).1 = { a with
      nullmap := sql_buffer_setbit a.nullmap 0,
      extra := sql_buffer_append a.extra bs,
      values := sql_buffer_append (sql_buffer_append_zero a.values 4)
        (natToLE 4 (sql_buffer_append a.extra bs).usage) } := rfl

theorem put_variable_step (done : List Cell) (c : Cell) (a : SQLattribute)
    (hne : done.length ≠ 0) (inv : VarInv done a) :
    VarInv (done ++ [c]) (put_variable_value a done.length c).1 := by
  obtain ⟨h1, h2, h3, h4, h5⟩ := inv
  cases c with
  | none =>
    rw [put_variable_none_eq a done.length hne]
    have hheap : heapBytes (done ++ [none]) = heapBytes done := by
      rw [heapBytes_append]; simp [heapBytes]
    refine ⟨?_, ?_, ?_, ?_, ?_⟩
    · simp only [List.length_append, List.length_cons, List.length_nil]
      rw [append_usage a.values _ h3, h1, natToLE_length]
      omega
    · rw [hheap]; exact h2
    · exact append_wf a.values _ h3
    · exact h4
    · intro i hi hb
      simp only [List.length_append, List.length_cons, List.length_nil] at hi
      rcases Nat.lt_or_ge i (done.length + 1) with hi' | hi'
      · have htake : (done ++ [none]).take i = done.take i :=
          List.take_append_of_le_length (by omega)
        rw [htake] at hb ⊢
        rw [readLE_congr _ a.values.bytes _ _ fun k hk =>
          append_bytes_lt a.values _ _ h3 (by omega)]
        exact h5 i (by omega) hb
      · have hieq : i = done.length + 1 := by omega
        subst hieq
        have htake : (done ++ [none]).take (done.length + 1) =
            done ++ [none] := List.take_of_length_le (by simp)
        rw [htake] at hb ⊢
        rw [hheap] at hb ⊢
        rw [← h2] at hb ⊢
        refine readLE_of_natToLE _ _ _ _ hb ?_
        intro k hk
        rw [show 4 * (done.length + 1) + k = a.values.usage + k by omega]
        exact append_bytes_at a.values _ k h3 (by simpa using hk)
  | some bs =>
    rw [put_variable_some_eq a done.length bs hne]
    have hEu : (sql_buffer_append a.extra bs).usage =
        heapBytes done + bs.length := by
      rw [append_usage a.extra bs h4, h2]
    have hheap : heapBytes (done ++ [some bs]) = heapBytes done + bs.length := by
      rw [heapBytes_append]; simp [heapBytes]
    refine ⟨?_, ?_, ?_, ?_, ?_⟩
    · simp only [List.length_append, List.length_cons, List.length_nil]
      rw [append_usage a.values _ h3, h1, natToLE_length]
      omega
    · rw [hEu, hheap]
    · exact append_wf a.values _ h3
    · exact append_wf a.extra bs h4
    · intro i hi hb
      simp only [List.length_append, List.length_cons, List.length_nil] at hi
      rcases Nat.lt_or_ge i (done.length + 1) with hi' | hi'
      · have htake : (done ++ [some bs]).take i = done.take i :=
          List.take_append_of_le_length (by omega)
        rw [htake] at hb ⊢
        rw [readLE_congr _ a.values.bytes _ _ fun k hk =>
          append_bytes_lt a.values _ _ h3 (by omega)]
        exact h5 i (by omega) hb
      · have hieq : i = done.length + 1 := by omega
        subst hieq
        have htake : (done ++ [some bs]).take (done.length + 1) =
            done ++ [some bs] := List.take_of_length_le (by simp)
        rw [htake] at hb ⊢
        rw [hheap] at hb ⊢
        rw [← hEu] at hb ⊢
        refine readLE_of_natToLE _ _ _ _ hb ?_
        intro k hk
        rw [show 4 * (done.length + 1) + k = a.values.usage + k by omega]
        exact append_bytes_at a.values _ k h3 (by simpa using hk)

theorem put_variable_base (c : Cell) :
    VarInv [c] (put_variable_value (initAttr .variable) 0 c).1 := by
  have hinit : sql_buffer_init.usage ≤ sql_buffer_init.length := Nat.le_refl 0
  have hvu : (sql_buffer_append_zero sql_buffer_init 4).usage = 4 := by
    unfold sql_buffer_append_zero
    rw [append_usage _ _ hinit]
    simp [sql_buffer_init]
  have hvw : (sql_buffer_append_zero sql_buffer_init 4).usage ≤
      (sql_buffer_append_zero sql_buffer_init 4).length :=
    append_wf _ _ hinit
  have hvb : ∀ k, k < 4 →
      (sql_buffer_append_zero sql_buffer_init 4).bytes k = 0 := by
    intro k hk
    unfold sql_buffer_append_zero
    rw [show k = sql_buffer_init.usage + k by simp [sql_buffer_init]]
    rw [append_bytes_at _ _ _ hinit (by simpa using hk)]
    exact replicate_getD_zero 4 k
  have hread0 : ∀ src : List Nat,
      readLE (sql_buffer_append (sql_buffer_append_zero sql_buffer_init 4)
          src).bytes 0 4 = 0 := by
    intro src
    refine readLE_of_natToLE _ _ _ 0 (by norm_num) ?_
    intro k hk
    rw [natToLE_zero_getD]
    rw [show 0 + k = k by omega]
    rw [append_bytes_lt _ _ _ hvw (by omega)]
    exact hvb k hk
  cases c with
  | none =>
    rw [put_variable_none0_eq,
      show (initAttr ColKind.variable).values = sql_buffer_init from rfl,
      show (initAttr ColKind.variable).extra = sql_buffer_init from rfl]
    refine ⟨?_, ?_, ?_, ?_, ?_⟩
    · simp only [List.length_cons, List.length_nil]
      rw [append_usage _ _ hvw, hvu, natToLE_length]
    · rfl
    · exact append_wf _ _ hvw
    · exact Nat.le_refl 0
    · intro i hi hb
      simp only [List.length_cons, List.length_nil] at hi
      rcases Nat.lt_or_ge i 1 with hi' | hi'
      · have hieq : i = 0 := by omega
        subst hieq
        simp only [List.take_zero, heapBytes, Nat.mul_zero]
        exact hread0 _
      · have hieq : i = 1 := by omega
        subst hieq
        simp only [List.take_of_length_le
          (by simp : ([none] : List Cell).length ≤ 1), heapBytes]
        refine readLE_of_natToLE _ _ _ _ (by norm_num) ?_
        intro k hk
        rw [show 4 * 1 + k = (sql_buffer_append_zero sql_buffer_init 4).usage + k
          by omega]
        exact append_bytes_at _ _ k hvw (by simpa using hk)
  | some bs =>
    rw [put_variable_some0_eq,
      show (initAttr ColKind.variable).values = sql_buffer_init from rfl,
      show (initAttr ColKind.variable).extra = sql_buffer_init from rfl]
    have hEu : (sql_buffer_append sql_buffer_init bs).usage = bs.length := by
      rw [append_usage _ _ hinit]; simp [sql_buffer_init]
    refine ⟨?_, ?_, ?_, ?_, ?_⟩
    · simp only [List.length_cons, List.length_nil]
      rw [append_usage _ _ hvw, hvu, natToLE_length]
    · rw [hEu]; simp [heapBytes]
    · exact append_wf _ _ hvw
    · exact append_wf _ _ hinit
    · intro i hi hb
      simp only [List.length_cons, List.length_nil] at hi
      rcases Nat.lt_or_ge i 1 with hi' | hi'
      · have hieq : i = 0 := by omega
        subst hieq
        simp only [List.take_zero, heapBytes, Nat.mul_zero]
        exact hread0 _
      · have hieq : i = 1 := by omega
        subst hieq
        rw [List.take_of_length_le (by simp),
          show heapBytes [some bs] = bs.length by simp [heapBytes]] at hb ⊢
        rw [← hEu] at hb ⊢
        refine readLE_of_natToLE _ _ _ _ hb ?_
        intro k hk
        rw [show 4 * 1 + k = (sql_buffer_append_zero sql_buffer_init 4).usage + k
          by omega]
        exact append_bytes_at _ _ k hvw (by simpa using hk)

theorem put_value_kind (a : SQLattribute) (idx : Nat) (c : Cell) :
    ((put_value a idx c).1).kind = a.kind := by
  unfold put_value
  cases hk : a.kind <;> cases c <;>
    simp [put_inline_value, put_date_value, put_timestamp_value,
      put_variable_value, hk]

theorem putVar_fold : ∀ (cs done : List Cell) (a : SQLattribute),
    a.kind = .variable → done.length ≠ 0 → VarInv done a →
    VarInv (done ++ cs) (putList a done.length cs)
  | [], done, a, _, _, inv => by simpa using inv
  | c :: cs, done, a, hk, hne, inv => by
    have hpv : put_value a done.length c = put_variable_value a done.length c := by
      unfold put_value; rw [hk]
    have step := put_variable_step done c a hne inv
    rw [← hpv] at step
    have rec := putVar_fold cs (done ++ [c]) (put_value a done.length c).1
      (by rw [put_value_kind, hk]) (by simp) (by simpa using step)
    simp only [List.length_append, List.length_cons, List.length_nil] at rec
    rw [show (done ++ [c]) ++ cs = done ++ (c :: cs) by simp] at rec
    exact rec

/-! The decimal handler (put_decimal_value, arrow_types.c).  The source
numeric carries base-10000 digits, a weight and a sign; the handler
assembles an int128, scaled to the Arrow scale, negating last. -/

def NBASE : Nat := 10000

def NUMERIC_SIGN_MASK : Nat := 0xC000

def NUMERIC_NEG : Nat := 0x4000

def NUMERIC_NAN : Nat := 0xC000

def outOfRangeMsg : String := "Numeric digit is out of range"

/-- dig = (d < ndigits) ? ntohs(rawdata->digits[d]) : 0 -/
def decDigit (digits : List Nat) (ndigits d : Nat) : Nat :=
  if d < ndigits then digits.getD d 0 else 0

/-- Integer portion: for (d = 0; d <= weight; d++)
value = NBASE * value + dig, rejecting out-of-range digits.  value is a
C int128, so each step wraps modulo 2^128 (the accumulator holds the
two's-complement bit pattern, nonnegative until the final negation). -/
def decIntPart (digits : List Nat) (ndigits weight : Nat) : Except String Nat :=
  (List.range (weight + 1)).foldlM (fun v d =>
    let dig := decDigit digits ndigits d
    if NBASE ≤ dig then throw outOfRangeMsg
    else pure ((10000 * v + dig) % 2 ^ 128)) 0

/-- Fractional portion: while (ascale > 0), taking a whole base-10000 digit
when at least DEC_DIGITS decimal places remain, else only the top 3/2/1
decimal places of the digit; one partial step drives ascale to zero and
ends the loop. -/
def decFracPart (digits : List Nat) (ndigits : Nat) :
    Nat → Nat → Nat → Except String Nat
  | 0, _, v => pure v
  | 1, d, v =>
    let dig := decDigit digits ndigits d
    if NBASE ≤ dig then throw outOfRangeMsg
    else pure ((10 * v + dig / 1000) % 2 ^ 128)
  | 2, d, v =>
    let dig := decDigit digits ndigits d
    if NBASE ≤ dig then throw outOfRangeMsg
    else pure ((100 * v + dig / 100) % 2 ^ 128)
  | 3, d, v =>
    let dig := decDigit digits ndigits d
    if NBASE ≤ dig then throw outOfRangeMsg
    else pure ((1000 * v + dig / 10) % 2 ^ 128)
  | ascale + 4, d, v =>
    let dig := decDigit digits ndigits d
    if NBASE ≤ dig then throw outOfRangeMsg
    else decFracPart digits ndigits ascale (d + 1) ((10000 * v + dig) % 2 ^ 128)

/-- The non-null arm of put_decimal_value: NaN check, integer portion over
d = 0..weight, fractional portion starting at d = weight+1 down to the
Arrow scale, sign applied last.  The result is the int128 bit pattern
that sql_buffer_append stores; `value = -value` is two's-complement
negation, i.e. (2^128 - v) mod 2^128. -/
def put_decimal_compute (ndigits weight sign ascale : Nat)
    (digits : List Nat) : Except String Nat :=
  if sign &&& NUMERIC_SIGN_MASK = NUMERIC_NAN then
    throw "Decimal128 cannot map NaN in PostgreSQL Numeric"
  else do
    let v ← decIntPart digits ndigits weight
    let v ← decFracPart digits ndigits ascale (weight + 1) v
    pure (if sign &&& NUMERIC_NEG ≠ 0 then (2 ^ 128 - v) % 2 ^ 128 else v)

/-- The signed value an int128 bit pattern denotes. -/
def int128ToInt (p : Nat) : Int :=
  if p < 2 ^ 127 then (p : Int) else (p : Int) - 2 ^ 128

/-- The numeric's magnitude when read as a base-10000 positional value with
the given weight: digit d carries place value 10000^(weight-d). -/
def numericMagnitude (digits : List Nat) (weight : Nat) : Nat :=
  ∑ d ∈ Finset.range digits.length, digits.getD d 0 * 10000 ^ (weight - d)

theorem decDigit_lt (digits : List Nat) (ndigits d : Nat)
    (h : ∀ x ∈ digits, x < 10000) : decDigit digits ndigits d < 10000 := by
  unfold decDigit
  split
  · rcases Nat.lt_or_ge d digits.length with hd | hd
    · rw [List.getD_eq_getElem?_getD, List.getElem?_eq_getElem hd]
      exact h _ (List.getElem_mem hd)
    · rw [List.getD_eq_getElem?_getD, List.getElem?_eq_none hd]
      simp
  · omega

theorem decDigit_ge (digits : List Nat) (ndigits d : Nat) (h : ndigits ≤ d) :
    decDigit digits ndigits d = 0 := by
  unfold decDigit
  rw [if_neg (by omega)]

theorem decIntPart_ok (digits : List Nat) (ndigits : Nat)
    (h : ∀ x ∈ digits, x < 10000) : ∀ (l : List Nat) (v0 : Nat),
    (l.foldlM (fun v d =>
      let dig := decDigit digits ndigits d
      if NBASE ≤ dig then throw outOfRangeMsg
      else pure ((10000 * v + dig) % 2 ^ 128)) v0 : Except String Nat) =
    .ok (l.foldl (fun v d =>
      (10000 * v + decDigit digits ndigits d) % 2 ^ 128) v0)
  | [], v0 => rfl
  | d :: l, v0 => by
    have hd := decDigit_lt digits ndigits d h
    rw [List.foldlM_cons]
    simp only [if_neg (show ¬ NBASE ≤ decDigit digits ndigits d by
      rw [show NBASE = 10000 from rfl]; omega)]
    rw [pure_bind]
    exact decIntPart_ok digits ndigits h l _

theorem decFold_ge (digits : List Nat) (ndigits : Nat) :
    ∀ (l : List Nat) (v0 : Nat),
    v0 ≤ l.foldl (fun v d => 10000 * v + decDigit digits ndigits d) v0
  | [], v0 => Nat.le_refl v0
  | d :: l, v0 => by
    simp only [List.foldl_cons]
    exact le_trans (by omega)
      (decFold_ge digits ndigits l (10000 * v0 + decDigit digits ndigits d))

/-- As long as the final value of the unwrapped accumulation fits int128,
no intermediate step wraps: the value is nondecreasing along the loop. -/
theorem decFold_mod_eq (digits : List Nat) (ndigits : Nat) :
    ∀ (l : List Nat) (v0 : Nat),
    l.foldl (fun v d => 10000 * v + decDigit digits ndigits d) v0 < 2 ^ 128 →
    l.foldl (fun v d =>
      (10000 * v + decDigit digits ndigits d) % 2 ^ 128) v0 =
      l.foldl (fun v d => 10000 * v + decDigit digits ndigits d) v0
  | [], _, _ => rfl
  | d :: l, v0, h => by
    simp only [List.foldl_cons] at h ⊢
    have hs : 10000 * v0 + decDigit digits ndigits d < 2 ^ 128 :=
      lt_of_le_of_lt (decFold_ge digits ndigits l _) h
    rw [Nat.mod_eq_of_lt hs]
    exact decFold_mod_eq digits ndigits l _ h

theorem horner_range (f : Nat → Nat) : ∀ (m : Nat) (v0 : Nat),
    (List.range m).foldl (fun v d => 10000 * v + f d) v0 =
      v0 * 10000 ^ m + ∑ d ∈ Finset.range m, f d * 10000 ^ (m - 1 - d) := by
  intro m
  induction m with
  | zero => intro v0; simp
  | succ m ih =>
    intro v0
    rw [List.range_succ, List.foldl_append, ih v0]
    simp only [List.foldl_cons, List.foldl_nil, Finset.sum_range_succ]
    simp only [Nat.add_sub_cancel, Nat.sub_self, pow_zero, mul_one]
    have hsum : (∑ d ∈ Finset.range m, f d * 10000 ^ (m - 1 - d)) * 10000 =
        ∑ d ∈ Finset.range m, f d * 10000 ^ (m - d) := by
      rw [Finset.sum_mul]
      refine Finset.sum_congr rfl fun d hd => ?_
      rw [Finset.mem_range] at hd
      rw [show m - d = (m - 1 - d) + 1 by omega, pow_succ]
      ring
    have hpow : v0 * 10000 ^ (m + 1) = v0 * 10000 ^ m * 10000 := by
      rw [pow_succ]
      ring
    omega

theorem decFracPart_zeros (digits : List Nat) (ndigits : Nat) :
    ∀ (ascale d : Nat) (v : Nat), ndigits ≤ d → v * 10 ^ ascale < 2 ^ 128 →
    decFracPart digits ndigits ascale d v = .ok (v * 10 ^ ascale)
  | 0, d, v, h, _ => by
    unfold decFracPart
    show Except.ok v = Except.ok (v * 10 ^ 0)
    congr 1
    rw [pow_zero, Nat.mul_one]
  | 1, d, v, h, hv => by
    unfold decFracPart
    rw [decDigit_ge digits ndigits d h,
      if_neg (show ¬ NBASE ≤ 0 by rw [show NBASE = 10000 from rfl]; omega)]
    show Except.ok ((10 * v + 0 / 1000) % 2 ^ 128) = Except.ok (v * 10 ^ 1)
    congr 1
    rw [pow_one] at hv ⊢
    rw [Nat.mod_eq_of_lt (by omega)]
    omega
  | 2, d, v, h, hv => by
    unfold decFracPart
    rw [decDigit_ge digits ndigits d h,
      if_neg (show ¬ NBASE ≤ 0 by rw [show NBASE = 10000 from rfl]; omega)]
    show Except.ok ((100 * v + 0 / 100) % 2 ^ 128) = Except.ok (v * 10 ^ 2)
    congr 1
    rw [show (10 : Nat) ^ 2 = 100 by norm_num] at hv ⊢
    rw [Nat.mod_eq_of_lt (by omega)]
    omega
  | 3, d, v, h, hv => by
    unfold decFracPart
    rw [decDigit_ge digits ndigits d h,
      if_neg (show ¬ NBASE ≤ 0 by rw [show NBASE = 10000 from rfl]; omega)]
    show Except.ok ((1000 * v + 0 / 10) % 2 ^ 128) = Except.ok (v * 10 ^ 3)
    congr 1
    rw [show (10 : Nat) ^ 3 = 1000 by norm_num] at hv ⊢
    rw [Nat.mod_eq_of_lt (by omega)]
    omega
  | ascale + 4, d, v, h, hv => by
    unfold decFracPart
    rw [decDigit_ge digits ndigits d h,
      if_neg (show ¬ NBASE ≤ 0 by rw [show NBASE = 10000 from rfl]; omega)]
    rw [show 10000 * v + 0 = 10000 * v from rfl]
    have hkey : 10000 * v * 10 ^ ascale = v * 10 ^ (ascale + 4) := by
      rw [pow_add, show (10 : Nat) ^ 4 = 10000 by norm_num]
      ring
    have hpos : 0 < 10 ^ ascale := pow_pos (by omega) ascale
    have hle : 10000 * v ≤ 10000 * v * 10 ^ ascale :=
      Nat.le_mul_of_pos_right _ hpos
    have hlt : 10000 * v < 2 ^ 128 := by omega
    have hv4 : 10000 * v * 10 ^ ascale < 2 ^ 128 := by omega
    rw [Nat.mod_eq_of_lt hlt,
      decFracPart_zeros digits ndigits ascale (d + 1) (10000 * v)
        (by omega) hv4]
    congr 1

/-- Two's-complement encoding of a nonnegative int128 value. -/
theorem int128_pos_encode (x : Nat) (hx : x < 2 ^ 127) :
    int128ToInt x = (x : Int) := by
  unfold int128ToInt
  rw [if_pos hx]

/-- Two's-complement encoding of a negated int128 value. -/
theorem int128_neg_encode (x : Nat) (hx : x < 2 ^ 127) :
    int128ToInt ((2 ^ 128 - x) % 2 ^ 128) = -(x : Int) := by
  by_cases hz : x = 0
  · subst hz
    unfold int128ToInt
    norm_num
  · have h1 : (2 ^ 128 - x) % 2 ^ 128 = 2 ^ 128 - x :=
      Nat.mod_eq_of_lt (by omega)
    rw [h1]
    unfold int128ToInt
    rw [if_neg (by omega)]
    omega

/-- C4: a non-NaN numeric that is an exact integer (no digits below the
decimal point: ndigits ≤ weight+1) with magnitude v, provided v * 10^scale
fits int128 (v * 10^scale < 2^127, so the int128 accumulation never
wraps), appends the int128 bit pattern of v * 10^scale; when the negative
sign bit is set the appended pattern is the two's complement of
v * 10^scale, the sign being applied after the integer and fractional
portions are assembled.  Read back as a signed int128 the stored value is
exactly plus or minus v * 10^scale. -/
theorem decimal_exact_integer_value (digits : List Nat)
    (weight sign ascale : Nat)
    (hdig : ∀ x ∈ digits, x < 10000)
    (hnan : sign &&& NUMERIC_SIGN_MASK ≠ NUMERIC_NAN)
    (hint : digits.length ≤ weight + 1)
    (hbound : numericMagnitude digits weight * 10 ^ ascale < 2 ^ 127) :
    (put_decimal_compute digits.length weight sign ascale digits =
      .ok (if sign &&& NUMERIC_NEG ≠ 0 then
            (2 ^ 128 - numericMagnitude digits weight * 10 ^ ascale) % 2 ^ 128
          else numericMagnitude digits weight * 10 ^ ascale)) ∧
    int128ToInt (if sign &&& NUMERIC_NEG ≠ 0 then
        (2 ^ 128 - numericMagnitude digits weight * 10 ^ ascale) % 2 ^ 128
      else numericMagnitude digits weight * 10 ^ ascale) =
      (if sign &&& NUMERIC_NEG ≠ 0 then
        -((numericMagnitude digits weight : Int) * 10 ^ ascale)
      else (numericMagnitude digits weight : Int) * 10 ^ ascale) := by
  have h2 : (2 : Nat) ^ 127 < 2 ^ 128 := by norm_num
  have hm2 : numericMagnitude digits weight * 10 ^ ascale < 2 ^ 128 := by
    omega
  have hpos : 0 < 10 ^ ascale := pow_pos (by omega) ascale
  have hmle : numericMagnitude digits weight ≤
      numericMagnitude digits weight * 10 ^ ascale :=
    Nat.le_mul_of_pos_right _ hpos
  have hip : decIntPart digits digits.length weight =
      .ok (numericMagnitude digits weight) := by
    unfold decIntPart
    rw [decIntPart_ok digits digits.length hdig (List.range (weight + 1)) 0]
    congr 1
    have hdd : ∀ d, decDigit digits digits.length d = digits.getD d 0 := by
      intro d
      unfold decDigit
      split
      · rfl
      · rw [List.getD_eq_getElem?_getD, List.getElem?_eq_none (by omega)]
        rfl
    have hpure : (List.range (weight + 1)).foldl
        (fun v d => 10000 * v + decDigit digits digits.length d) 0 =
        numericMagnitude digits weight := by
      rw [horner_range _ (weight + 1) 0]
      unfold numericMagnitude
      rw [Finset.sum_subset (Finset.range_subset.mpr hint)]
      · simp only [Nat.add_sub_cancel]
        rw [Nat.zero_mul, Nat.zero_add]
        refine Finset.sum_congr rfl fun d hd => ?_
        rw [hdd]
      · intro d _ hd
        rw [Finset.mem_range, Nat.not_lt] at hd
        rw [List.getD_eq_getElem?_getD, List.getElem?_eq_none hd]
        simp
    rw [decFold_mod_eq digits digits.length (List.range (weight + 1)) 0
      (by rw [hpure]; omega), hpure]
  constructor
  · unfold put_decimal_compute
    rw [if_neg hnan]
    rw [show (decIntPart digits digits.length weight >>= fun v =>
          decFracPart digits digits.length ascale (weight + 1) v >>= fun v =>
          pure (if sign &&& NUMERIC_NEG ≠ 0 then
            (2 ^ 128 - v) % 2 ^ 128 else v) :
        Except String Nat) =
      (decIntPart digits digits.length weight >>= fun v =>
          decFracPart digits digits.length ascale (weight + 1) v >>= fun v =>
          pure (if sign &&& NUMERIC_NEG ≠ 0 then
            (2 ^ 128 - v) % 2 ^ 128 else v)) from rfl]
    rw [hip]
    rw [show ((Except.ok (numericMagnitude digits weight) :
          Except String Nat) >>=
        fun v => decFracPart digits digits.length ascale (weight + 1) v >>=
          fun v => pure (if sign &&& NUMERIC_NEG ≠ 0 then
            (2 ^ 128 - v) % 2 ^ 128 else v)) =
      (decFracPart digits digits.length ascale (weight + 1)
          (numericMagnitude digits weight) >>=
        fun v => pure (if sign &&& NUMERIC_NEG ≠ 0 then
          (2 ^ 128 - v) % 2 ^ 128 else v)) from rfl]
    rw [decFracPart_zeros digits digits.length ascale (weight + 1) _ hint hm2]
    rfl
  · have hcast : ((numericMagnitude digits weight * 10 ^ ascale : Nat) :
        Int) = (numericMagnitude digits weight : Int) * 10 ^ ascale := by
      push_cast
      ring
    by_cases hneg : sign &&& NUMERIC_NEG ≠ 0
    · rw [if_pos hneg, if_pos hneg, int128_neg_encode _ hbound, hcast]
    · rw [if_neg hneg, if_neg hneg, int128_pos_encode _ hbound, hcast]

theorem decimal_exact_integer_value_witness :
    (∀ x ∈ [1, 2345], x < 10000) ∧
    numericMagnitude [1, 2345] 1 * 10 ^ 2 < 2 ^ 127 ∧
    put_decimal_compute ([1, 2345] : List Nat).length 1 0x4000 2 [1, 2345] =
      .ok (if (0x4000 : Nat) &&& NUMERIC_NEG ≠ 0 then
            (2 ^ 128 - numericMagnitude [1, 2345] 1 * 10 ^ 2) % 2 ^ 128
          else numericMagnitude [1, 2345] 1 * 10 ^ 2) :=
  ⟨by decide, by norm_num [numericMagnitude, Finset.sum_range_succ],
    (decimal_exact_integer_value [1, 2345] 1 0x4000 2 (by decide) (by decide)
      (by decide)
      (by norm_num [numericMagnitude, Finset.sum_range_succ])).1⟩

/-! Buffer vector assembly (__setupArrowBuffer in the record-batch writer;
setup_buffer_inline_type / setup_buffer_varlena_type are the same walk).
Each field contributes its nullmap buffer (zero-length when nullcount = 0),
its values buffer and, for varlena layouts, its extra buffer; every stored
length is MAXALIGN (8-byte) rounded and the running offset advances by the
stored length. -/

inductive LayoutKind where
  | fixed | varlena
deriving DecidableEq

structure ColBuffers where
  layout : LayoutKind
  nullcount : Nat
  nullmapUsage : Nat
  valuesUsage : Nat
  extraUsage : Nat
deriving DecidableEq

structure ABuf where
  offset : Nat
  length : Nat
deriving DecidableEq

def nullmapBufLength (c : ColBuffers) : Nat :=
  if c.nullcount = 0 then 0 else MAXALIGN c.nullmapUsage

def setupArrowBuffer (offset : Nat) (c : ColBuffers) : List ABuf × Nat :=
  match c.layout with
  | .fixed =>
    ([⟨offset, nullmapBufLength c⟩,
      ⟨offset + nullmapBufLength c, MAXALIGN c.valuesUsage⟩],
     offset + nullmapBufLength c + MAXALIGN c.valuesUsage)
  | .varlena =>
    ([⟨offset, nullmapBufLength c⟩,
      ⟨offset + nullmapBufLength c, MAXALIGN c.valuesUsage⟩,
      ⟨offset + nullmapBufLength c + MAXALIGN c.valuesUsage,
       MAXALIGN c.extraUsage⟩],
     offset + nullmapBufLength c + MAXALIGN c.valuesUsage +
       MAXALIGN c.extraUsage)

def setupBuffers : List ColBuffers → Nat → List ABuf × Nat
  | [], offset => ([], offset)
  | c :: cs, offset =>
    let p := setupArrowBuffer offset c
    let q := setupBuffers cs p.2
    (p.1 ++ q.1, q.2)

/-- The buffers form a chain: each starts at the running offset, which then
advances by its stored length. -/
def chainFrom : Nat → List ABuf → Prop
  | _, [] => True
  | o, b :: bs => b.offset = o ∧ chainFrom (b.offset + b.length) bs

theorem MAXALIGN_mod8 (x : Nat) : MAXALIGN x % 8 = 0 := by
  obtain ⟨k, hk⟩ := TYPEALIGN_dvd 8 x
  unfold MAXALIGN
  rw [hk]
  exact Nat.mul_mod_right 8 k

theorem nullmapBufLength_mod8 (c : ColBuffers) : nullmapBufLength c % 8 = 0 := by
  unfold nullmapBufLength
  split
  · rfl
  · exact MAXALIGN_mod8 _

theorem setupBuffers_spec : ∀ (cols : List ColBuffers) (off : Nat),
    off % 8 = 0 →
    chainFrom off (setupBuffers cols off).1 ∧
    (∀ b ∈ (setupBuffers cols off).1, b.offset % 8 = 0 ∧ b.length % 8 = 0) ∧
    (setupBuffers cols off).2 % 8 = 0
  | [], off, h => ⟨trivial, by simp [setupBuffers], h⟩
  | c :: cs, off, h => by
    have hn := nullmapBufLength_mod8 c
    have hv := MAXALIGN_mod8 c.valuesUsage
    have he := MAXALIGN_mod8 c.extraUsage
    cases hl : c.layout with
    | fixed =>
      have hend : (setupArrowBuffer off c).2 =
          off + nullmapBufLength c + MAXALIGN c.valuesUsage := by
        unfold setupArrowBuffer
        rw [hl]
      obtain ⟨r1, r2, r3⟩ := setupBuffers_spec cs
        (off + nullmapBufLength c + MAXALIGN c.valuesUsage) (by omega)
      have hsb : setupBuffers (c :: cs) off =
          ([⟨off, nullmapBufLength c⟩,
            ⟨off + nullmapBufLength c, MAXALIGN c.valuesUsage⟩] ++
            (setupBuffers cs (off + nullmapBufLength c +
              MAXALIGN c.valuesUsage)).1,
           (setupBuffers cs (off + nullmapBufLength c +
              MAXALIGN c.valuesUsage)).2) := by
        simp only [setupBuffers, setupArrowBuffer, hl]
      rw [hsb]
      refine ⟨⟨rfl, rfl, ?_⟩, ?_, r3⟩
      · exact r1
      · intro b hb
        simp only [List.cons_append, List.nil_append, List.mem_cons] at hb
        rcases hb with rfl | rfl | hb
        · exact ⟨h, hn⟩
        · exact ⟨show (off + nullmapBufLength c) % 8 = 0 by omega, hv⟩
        · exact r2 b hb
    | varlena =>
      obtain ⟨r1, r2, r3⟩ := setupBuffers_spec cs
        (off + nullmapBufLength c + MAXALIGN c.valuesUsage +
          MAXALIGN c.extraUsage) (by omega)
      have hsb : setupBuffers (c :: cs) off =
          ([⟨off, nullmapBufLength c⟩,
            ⟨off + nullmapBufLength c, MAXALIGN c.valuesUsage⟩,
            ⟨off + nullmapBufLength c + MAXALIGN c.valuesUsage,
             MAXALIGN c.extraUsage⟩] ++
            (setupBuffers cs (off + nullmapBufLength c +
              MAXALIGN c.valuesUsage + MAXALIGN c.extraUsage)).1,
           (setupBuffers cs (off + nullmapBufLength c +
              MAXALIGN c.valuesUsage + MAXALIGN c.extraUsage)).2) := by
        simp only [setupBuffers, setupArrowBuffer, hl]
      rw [hsb]
      refine ⟨⟨rfl, rfl, rfl, ?_⟩, ?_, r3⟩
      · exact r1
      · intro b hb
        simp only [List.cons_append, List.nil_append, List.mem_cons] at hb
        rcases hb with rfl | rfl | rfl | hb
        · exact ⟨h, hn⟩
        · exact ⟨show (off + nullmapBufLength c) % 8 = 0 by omega, hv⟩
        · exact ⟨show (off + nullmapBufLength c + MAXALIGN c.valuesUsage) % 8 = 0
            by omega, he⟩
        · exact r2 b hb

/-- C5 counterexample: two int32 columns with one row each (4 bytes of
values, no nulls).  The walk places the second column's buffers at offset
8, which is not a multiple of 64, and 8 differs from
prev.offset + align64(prev.length) = 0 + 64. -/
theorem buffer_offsets_not_64_aligned :
    ¬ (∀ b ∈ (setupBuffers [⟨.fixed, 0, 0, 4, 0⟩, ⟨.fixed, 0, 0, 4, 0⟩] 0).1,
        b.offset % 64 = 0) := by
  intro h
  exact absurd (h ⟨8, 8⟩ (by decide)) (by decide)

/-- C5 amended: the walk 8-byte-aligns, not 64: every buffer offset is a
multiple of 8, each buffer starts where the previous one ended (offset
advancing by the stored length, which is the MAXALIGN-rounded raw usage),
and a field with nullcount = 0 contributes a zero-length nullmap buffer at
the current offset without advancing. -/
theorem buffer_walk_eight_aligned (cols : List ColBuffers) (off : Nat)
    (h0 : off % 8 = 0) :
    chainFrom off (setupBuffers cols off).1 ∧
    (∀ b ∈ (setupBuffers cols off).1, b.offset % 8 = 0 ∧ b.length % 8 = 0) ∧
    (∀ (off2 : Nat) (c : ColBuffers), c.nullcount = 0 →
      (setupArrowBuffer off2 c).1.head? = some ⟨off2, 0⟩) := by
  obtain ⟨r1, r2, _⟩ := setupBuffers_spec cols off h0
  refine ⟨r1, r2, ?_⟩
  intro off2 c hc
  unfold setupArrowBuffer nullmapBufLength
  cases c.layout <;> simp [hc]

theorem buffer_walk_eight_aligned_witness :
    (0 : Nat) % 8 = 0 ∧
    chainFrom 0 (setupBuffers
      [⟨.fixed, 0, 0, 4, 0⟩, ⟨.varlena, 1, 0, 12, 7⟩] 0).1 :=
  ⟨rfl, (buffer_walk_eight_aligned
    [⟨.fixed, 0, 0, 4, 0⟩, ⟨.varlena, 1, 0, 12, 7⟩] 0 rfl).1⟩

/-! Message framing.  writeFlatBufferMessage (the current variant) emits
int32 metaLength, int32 rootOffset, a leading gap of INTALIGN(vlen) - vlen
zero bytes, the flattened payload, then zero padding up to
nbytes = INTALIGN(gap + payload length); the total is 8 + nbytes.  The
older static __writeFlatBufferMessage pads the whole record to MAXALIGN
instead.  vlen is payload->vtable.vlen, payload the flattened bytes
starting at &payload->vtable (payload->length bytes). -/

def writeFlatBufferMessage (vlen : Nat) (payload : List Nat) : List Nat :=
  natToLE 4 (4 + INTALIGN ((INTALIGN vlen - vlen) + payload.length)) ++
  (natToLE 4 (4 + INTALIGN vlen) ++
  (List.replicate (INTALIGN vlen - vlen) 0 ++
  (payload ++
  List.replicate (INTALIGN ((INTALIGN vlen - vlen) + payload.length) -
    ((INTALIGN vlen - vlen) + payload.length)) 0)))

def writeFlatBufferMessageOld (vlen : Nat) (payload : List Nat) : List Nat :=
  natToLE 4 (4 + MAXALIGN payload.length) ++
  (natToLE 4 (4 + ((INTALIGN vlen - vlen) + vlen)) ++
  (List.replicate (INTALIGN vlen - vlen) 0 ++
  (payload ++
  List.replicate (MAXALIGN (8 + (INTALIGN vlen - vlen) + payload.length) -
    (8 + (INTALIGN vlen - vlen) + payload.length)) 0)))

theorem writeFlatBufferMessage_length (vlen : Nat) (payload : List Nat) :
    (writeFlatBufferMessage vlen payload).length =
      8 + INTALIGN ((INTALIGN vlen - vlen) + payload.length) := by
  have h := le_TYPEALIGN 4 ((INTALIGN vlen - vlen) + payload.length) (by omega)
  simp only [INTALIGN] at h ⊢
  simp [writeFlatBufferMessage, INTALIGN]
  omega

/-- C8 counterexample: with vtable length 8 (so no leading gap) and a
28-byte flattened payload, the current writeFlatBufferMessage emits
8 + INTALIGN(28) = 36 bytes, so the following message starts at a file
offset that is 4-byte but not 8-byte aligned. -/
theorem message_not_padded_to_8 :
    ¬ ((writeFlatBufferMessage 8 (List.replicate 28 1)).length % 8 = 0) := by
  decide

/-- C8 amended: the current writeFlatBufferMessage frames a message as
int32 metaLength = 4 + the payload-plus-gap size padded to 4, int32
rootOffset = 4 + INTALIGN(vlen), a gap of INTALIGN(vlen) - vlen zero
bytes, then the flattened payload; the total length is a multiple of 4
only.  The older __writeFlatBufferMessage variant is the one that pads the
whole message to a multiple of 8. -/
theorem message_framing_fields (vlen : Nat) (payload : List Nat) :
    (writeFlatBufferMessage vlen payload).take 4 =
      natToLE 4 (4 + INTALIGN ((INTALIGN vlen - vlen) + payload.length)) ∧
    ((writeFlatBufferMessage vlen payload).drop 4).take 4 =
      natToLE 4 (4 + INTALIGN vlen) ∧
    ((writeFlatBufferMessage vlen payload).drop 8).take
      (INTALIGN vlen - vlen) = List.replicate (INTALIGN vlen - vlen) 0 ∧
    ((writeFlatBufferMessage vlen payload).drop
      (8 + (INTALIGN vlen - vlen))).take payload.length = payload ∧
    (writeFlatBufferMessage vlen payload).length % 4 = 0 ∧
    (writeFlatBufferMessageOld vlen payload).length % 8 = 0 := by
  have hd8 : ∀ l : List Nat, l.drop 8 = (l.drop 4).drop 4 := by
    intro l
    rw [List.drop_drop]
  have hroot : (4 + INTALIGN vlen) = 4 + ((INTALIGN vlen - vlen) + vlen) := by
    have := le_TYPEALIGN 4 vlen (by omega)
    simp only [INTALIGN] at this ⊢
    omega
  refine ⟨List.take_left' (natToLE_length 4 _), ?_, ?_, ?_, ?_, ?_⟩
  · rw [writeFlatBufferMessage, List.drop_left' (natToLE_length 4 _)]
    exact List.take_left' (natToLE_length 4 _)
  · rw [hd8, writeFlatBufferMessage, List.drop_left' (natToLE_length 4 _),
      List.drop_left' (natToLE_length 4 _)]
    exact List.take_left' (List.length_replicate _ _)
  · rw [show 8 + (INTALIGN vlen - vlen) = 4 + 4 + (INTALIGN vlen - vlen)
        by omega, ← List.drop_drop, ← List.drop_drop,
      writeFlatBufferMessage, List.drop_left' (natToLE_length 4 _),
      List.drop_left' (natToLE_length 4 _),
      List.drop_left' (List.length_replicate _ _)]
    exact List.take_left' rfl
  · rw [writeFlatBufferMessage_length]
    obtain ⟨k, hk⟩ := TYPEALIGN_dvd 4 ((INTALIGN vlen - vlen) + payload.length)
    simp only [INTALIGN] at hk ⊢
    rw [hk]
    omega
  · have h := le_TYPEALIGN 8
      (8 + (INTALIGN vlen - vlen) + payload.length) (by omega)
    have htot : (writeFlatBufferMessageOld vlen payload).length =
        MAXALIGN (8 + (INTALIGN vlen - vlen) + payload.length) := by
      simp only [MAXALIGN] at h ⊢
      simp [writeFlatBufferMessageOld, MAXALIGN]
      omega
    rw [htot]
    exact MAXALIGN_mod8 _

/-! FlatBuffer table builder (__allocFBTableBuf, __addBufferScalar and the
addBufferBool/Char/Short/Int/Long wrappers, __makeBufferFlatten restricted
to its extra_sz == 0 branch) and reader (fetchFBTable, __fetchPointer,
fetchBool/Char/Short/Int/Long).  The vtable holds uint16 vlen, uint16
tlen and uint16 offset[i]; the table body starts tlen-relative at 0 and
its first int32 becomes vlen after flatten; all scalar values are stored
little-endian at an align-rounded cursor. -/

structure FBTableBuf where
  nattrs : Nat
  vlen : Nat
  tlen : Nat
  offsets : Nat → Nat
  tableBytes : Nat → Nat

def allocFBTableBuf (nattrs : Nat) : FBTableBuf :=
  ⟨nattrs, 4, 4, fun _ => 0, fun _ => 0⟩

def addBufferScalarRaw (buf : FBTableBuf) (index sz align value : Nat) :
    FBTableBuf :=
  { buf with
    tableBytes := writeBytes buf.tableBytes (TYPEALIGN align buf.tlen)
      (natToLE sz value)
    offsets := fun i =>
      if i = index then TYPEALIGN align buf.tlen else buf.offsets i
    tlen := TYPEALIGN align buf.tlen + sz
    vlen := max buf.vlen (4 + 2 * (index + 1)) }

/-- addBufferBool/Char/Short/Int/Long: the call is skipped entirely when
the value is zero, and each wrapper passes align = sizeof(value). -/
def addBufferScalar (buf : FBTableBuf) (index sz value : Nat) : FBTableBuf :=
  if value = 0 then buf else addBufferScalarRaw buf index sz sz value

def putScalars (buf : FBTableBuf) : List (Nat × Nat × Nat) → FBTableBuf
  | [] => buf
  | op :: rest => putScalars (addBufferScalar buf op.1 op.2.1 op.2.2) rest

/-- One byte of the flattened vtable: uint16 vlen, uint16 tlen, then the
uint16 offset slots. -/
def vtByte (buf : FBTableBuf) (pos : Nat) : Nat :=
  if pos < 2 then (natToLE 2 buf.vlen).getD pos 0
  else if pos < 4 then (natToLE 2 buf.tlen).getD (pos - 2) 0
  else (natToLE 2 (buf.offsets ((pos - 4) / 2))).getD ((pos - 4) % 2) 0

/-- The flat image produced by __makeBufferFlatten when no extra buffers
exist: the vtable truncated to vlen bytes, then the table body with its
first int32 overwritten by vlen. -/
def flatImage (buf : FBTableBuf) (pos : Nat) : Nat :=
  if pos < buf.vlen then vtByte buf pos
  else if pos < buf.vlen + 4 then (natToLE 4 buf.vlen).getD (pos - buf.vlen) 0
  else buf.tableBytes (pos - buf.vlen)

def fetchFBTable (f : Nat → Nat) (tpos : Nat) : Nat := tpos - readLE f tpos 4

def fetchPointer (f : Nat → Nat) (tpos index : Nat) : Option Nat :=
  if 4 + 2 * index < readLE f (fetchFBTable f tpos) 2 then
    if readLE f (fetchFBTable f tpos + (4 + 2 * index)) 2 ≠ 0 then
      some (tpos + readLE f (fetchFBTable f tpos + (4 + 2 * index)) 2)
    else none
  else none

def fetchScalar (f : Nat → Nat) (tpos index sz : Nat) : Nat :=
  (fetchPointer f tpos index).elim 0 (fun addr => readLE f addr sz)

theorem addRaw_nattrs (buf : FBTableBuf) (index sz align value : Nat) :
    (addBufferScalarRaw buf index sz align value).nattrs = buf.nattrs := rfl

theorem addRaw_offsets_eq (buf : FBTableBuf) (index sz align value : Nat) :
    (addBufferScalarRaw buf index sz align value).offsets index =
      TYPEALIGN align buf.tlen := by
  simp [addBufferScalarRaw]

theorem addRaw_offsets_ne (buf : FBTableBuf) (index sz align value j : Nat)
    (h : j ≠ index) :
    (addBufferScalarRaw buf index sz align value).offsets j =
      buf.offsets j := by
  simp [addBufferScalarRaw, h]

def ScalarInv (done : List (Nat × Nat × Nat)) (B : FBTableBuf) : Prop :=
  4 ≤ B.tlen ∧
  B.vlen % 2 = 0 ∧ 4 ≤ B.vlen ∧ B.vlen ≤ 4 + 2 * B.nattrs ∧
  (∀ p ∈ done, p.2.2 ≠ 0 →
    4 + 2 * p.1 < B.vlen ∧ 4 ≤ B.offsets p.1 ∧
    B.offsets p.1 + p.2.1 ≤ B.tlen ∧
    (∀ k, k < p.2.1 →
      B.tableBytes (B.offsets p.1 + k) = (natToLE p.2.1 p.2.2).getD k 0)) ∧
  (∀ i, (∀ p ∈ done, p.2.2 ≠ 0 → p.1 ≠ i) → B.offsets i = 0)

theorem putScalars_inv : ∀ (ops done : List (Nat × Nat × Nat))
    (B : FBTableBuf),
    ScalarInv done B →
    (∀ p ∈ ops, p.1 < B.nattrs ∧ 1 ≤ p.2.1) →
    (∀ p ∈ done, ∀ q ∈ ops, p.1 ≠ q.1) →
    ((ops.map fun p => p.1).Nodup) →
    ScalarInv (done ++ ops) (putScalars B ops) ∧
    (putScalars B ops).nattrs = B.nattrs
  | [], done, B, hInv, _, _, _ => by simpa [putScalars] using hInv
  | op :: rest, done, B, hInv, hops, hsep, hnd => by
    have hnd1 : ∀ q ∈ rest, op.1 ≠ q.1 := by
      intro q hq
      simp only [List.map_cons, List.nodup_cons] at hnd
      intro he
      exact hnd.1 (List.mem_map.mpr ⟨q, hq, he.symm⟩)
    have hndr : (rest.map fun p => p.1).Nodup := by
      simp only [List.map_cons, List.nodup_cons] at hnd
      exact hnd.2
    by_cases hv : op.2.2 = 0
    · have hstep : putScalars B (op :: rest) = putScalars B rest := by
        simp [putScalars, addBufferScalar, hv]
      have hInv' : ScalarInv (done ++ [op]) B := by
        obtain ⟨h1, h2, h3, h4, h5, h6⟩ := hInv
        refine ⟨h1, h2, h3, h4, ?_, ?_⟩
        · intro p hp hpz
          rcases List.mem_append.mp hp with hp | hp
          · exact h5 p hp hpz
          · simp only [List.mem_singleton] at hp
            subst hp
            exact absurd hv hpz
        · intro i hi
          refine h6 i ?_
          intro p hp
          exact hi p (List.mem_append.mpr (Or.inl hp))
      obtain ⟨r1, r2⟩ := putScalars_inv rest (done ++ [op]) B hInv'
        (fun p hp => hops p (List.mem_cons_of_mem _ hp))
        (by
          intro p hp q hq
          rcases List.mem_append.mp hp with hp | hp
          · exact hsep p hp q (List.mem_cons_of_mem _ hq)
          · simp only [List.mem_singleton] at hp
            subst hp
            exact hnd1 q hq)
        hndr
      rw [hstep]
      constructor
      · rw [show done ++ op :: rest = (done ++ [op]) ++ rest by simp]
        exact r1
      · exact r2
    · have hopc := hops op (List.mem_cons_self _ _)
      have hsz1 : 1 ≤ op.2.1 := hopc.2
      have htle : B.tlen ≤ TYPEALIGN op.2.1 B.tlen :=
        le_TYPEALIGN op.2.1 B.tlen (by omega)
      have hstep : putScalars B (op :: rest) =
          putScalars (addBufferScalarRaw B op.1 op.2.1 op.2.1 op.2.2) rest := by
        simp [putScalars, addBufferScalar, hv]
      obtain ⟨h1, h2, h3, h4, h5, h6⟩ := hInv
      have hInv' : ScalarInv (done ++ [op])
          (addBufferScalarRaw B op.1 op.2.1 op.2.1 op.2.2) := by
        refine ⟨?_, ?_, ?_, ?_, ?_, ?_⟩
        · show 4 ≤ TYPEALIGN op.2.1 B.tlen + op.2.1
          omega
        · show (max B.vlen (4 + 2 * (op.1 + 1))) % 2 = 0
          omega
        · show 4 ≤ max B.vlen (4 + 2 * (op.1 + 1))
          omega
        · show max B.vlen (4 + 2 * (op.1 + 1)) ≤
            4 + 2 * (addBufferScalarRaw B op.1 op.2.1 op.2.1 op.2.2).nattrs
          rw [addRaw_nattrs]
          have := hopc.1
          omega
        · intro p hp hpz
          rcases List.mem_append.mp hp with hp | hp
          · obtain ⟨g1, g2, g3, g4⟩ := h5 p hp hpz
            have hne : p.1 ≠ op.1 := hsep p hp op (List.mem_cons_self _ _)
            rw [addRaw_offsets_ne B op.1 op.2.1 op.2.1 op.2.2 p.1 hne]
            refine ⟨?_, g2, ?_, ?_⟩
            · show 4 + 2 * p.1 < max B.vlen (4 + 2 * (op.1 + 1))
              omega
            · show B.offsets p.1 + p.2.1 ≤ TYPEALIGN op.2.1 B.tlen + op.2.1
              omega
            · intro k hk
              show writeBytes B.tableBytes (TYPEALIGN op.2.1 B.tlen)
                (natToLE op.2.1 op.2.2) (B.offsets p.1 + k) =
                (natToLE p.2.1 p.2.2).getD k 0
              rw [writeBytes_lt _ _ _ _ (by omega)]
              exact g4 k hk
          · simp only [List.mem_singleton] at hp
            cases hp
            rw [addRaw_offsets_eq]
            refine ⟨?_, by omega, ?_, ?_⟩
            · show 4 + 2 * op.1 < max B.vlen (4 + 2 * (op.1 + 1))
              omega
            · show TYPEALIGN op.2.1 B.tlen + op.2.1 ≤
                TYPEALIGN op.2.1 B.tlen + op.2.1
              omega
            · intro k hk
              show writeBytes B.tableBytes (TYPEALIGN op.2.1 B.tlen)
                (natToLE op.2.1 op.2.2) (TYPEALIGN op.2.1 B.tlen + k) =
                (natToLE op.2.1 op.2.2).getD k 0
              exact writeBytes_at _ _ _ k (by rw [natToLE_length]; omega)
        · intro i hi
          have hne : op.1 ≠ i := hi op (List.mem_append.mpr
            (Or.inr (List.mem_singleton.mpr rfl))) hv
          rw [addRaw_offsets_ne B op.1 op.2.1 op.2.1 op.2.2 i
            (fun he => hne he.symm)]
          refine h6 i ?_
          intro p hp
          exact hi p (List.mem_append.mpr (Or.inl hp))
      obtain ⟨r1, r2⟩ := putScalars_inv rest (done ++ [op])
        (addBufferScalarRaw B op.1 op.2.1 op.2.1 op.2.2) hInv'
        (by
          intro p hp
          rw [addRaw_nattrs]
          exact hops p (List.mem_cons_of_mem _ hp))
        (by
          intro p hp q hq
          rcases List.mem_append.mp hp with hp | hp
          · exact hsep p hp q (List.mem_cons_of_mem _ hq)
          · simp only [List.mem_singleton] at hp
            subst hp
            exact hnd1 q hq)
        hndr
      rw [hstep]
      constructor
      · rw [show done ++ op :: rest = (done ++ [op]) ++ rest by simp]
        exact r1
      · rw [r2, addRaw_nattrs]

theorem flatImage_root_read (B : FBTableBuf) (hv4 : 4 ≤ B.vlen)
    (hvlt : B.vlen < 2 ^ 32) :
    readLE (flatImage B) B.vlen 4 = B.vlen := by
  refine readLE_of_natToLE _ _ 4 _ ?_ ?_
  · rw [show (2 : Nat) ^ (8 * 4) = 2 ^ 32 by norm_num]
    exact hvlt
  · intro k hk
    unfold flatImage
    rw [if_neg (by omega), if_pos (by omega)]
    congr 1
    omega

theorem flatImage_vlen_read (B : FBTableBuf) (hv4 : 4 ≤ B.vlen)
    (hvlt : B.vlen < 2 ^ 16) :
    readLE (flatImage B) 0 2 = B.vlen := by
  refine readLE_of_natToLE _ _ 2 _ ?_ ?_
  · rw [show (2 : Nat) ^ (8 * 2) = 2 ^ 16 by norm_num]
    exact hvlt
  · intro k hk
    unfold flatImage vtByte
    rw [if_pos (by omega), if_pos (by omega)]
    congr 1
    omega

theorem flatImage_offset_read (B : FBTableBuf) (i : Nat)
    (hvE : B.vlen % 2 = 0) (hi : 4 + 2 * i < B.vlen)
    (holt : B.offsets i < 2 ^ 16) :
    readLE (flatImage B) (4 + 2 * i) 2 = B.offsets i := by
  refine readLE_of_natToLE _ _ 2 _ ?_ ?_
  · rw [show (2 : Nat) ^ (8 * 2) = 2 ^ 16 by norm_num]
    exact holt
  · intro k hk
    unfold flatImage vtByte
    rw [if_pos (by omega), if_neg (by omega), if_neg (by omega),
      show (4 + 2 * i + k - 4) / 2 = i by omega,
      show (4 + 2 * i + k - 4) % 2 = k by omega]

theorem flatImage_table_read (B : FBTableBuf) (o sz v : Nat) (ho4 : 4 ≤ o)
    (hv : v < 2 ^ (8 * sz))
    (hbytes : ∀ k, k < sz →
      B.tableBytes (o + k) = (natToLE sz v).getD k 0) :
    readLE (flatImage B) (B.vlen + o) sz = v := by
  refine readLE_of_natToLE _ _ sz _ hv ?_
  intro k hk
  unfold flatImage
  rw [if_neg (by omega), if_neg (by omega),
    show B.vlen + o + k - B.vlen = o + k by omega]
  exact hbytes k hk

theorem fetchPointer_eq (B : FBTableBuf) (i : Nat) (hv4 : 4 ≤ B.vlen)
    (hvE : B.vlen % 2 = 0) (hvlt : B.vlen < 2 ^ 16)
    (holt : B.offsets i < 2 ^ 16) :
    fetchPointer (flatImage B) B.vlen i =
      if 4 + 2 * i < B.vlen then
        if B.offsets i ≠ 0 then some (B.vlen + B.offsets i) else none
      else none := by
  have hv32 : B.vlen < 2 ^ 32 := lt_trans hvlt (by norm_num)
  unfold fetchPointer fetchFBTable
  rw [flatImage_root_read B hv4 hv32, Nat.sub_self,
    flatImage_vlen_read B hv4 hvlt]
  by_cases hi : 4 + 2 * i < B.vlen
  · rw [if_pos hi, if_pos hi, Nat.zero_add,
      flatImage_offset_read B i hvE hi holt]
  · rw [if_neg hi, if_neg hi]

/-- C7: the scalar FlatBuffer roundtrip.  Starting from a fresh table
builder and adding scalar fields with distinct indices, after flatten the
int32 at the table root equals vlen; every field added with a non-zero
value has its offset recorded below tlen and reads back equal through
__fetchPointer; every field added with value zero is omitted
(offset[i] = 0) and the reader returns the default 0. -/
theorem flatbuffer_scalar_roundtrip (n : Nat) (ops : List (Nat × Nat × Nat))
    (hops : ∀ p ∈ ops, p.1 < n ∧ 1 ≤ p.2.1 ∧ p.2.2 < 2 ^ (8 * p.2.1))
    (hnd : ((ops.map fun p => p.1).Nodup))
    (hn : 4 + 2 * n < 2 ^ 16)
    (htlen : (putScalars (allocFBTableBuf n) ops).tlen < 2 ^ 16) :
    readLE (flatImage (putScalars (allocFBTableBuf n) ops))
        (putScalars (allocFBTableBuf n) ops).vlen 4 =
      (putScalars (allocFBTableBuf n) ops).vlen ∧
    (∀ p ∈ ops, p.2.2 ≠ 0 →
      (putScalars (allocFBTableBuf n) ops).offsets p.1 ≠ 0 ∧
      (putScalars (allocFBTableBuf n) ops).offsets p.1 <
        (putScalars (allocFBTableBuf n) ops).tlen ∧
      fetchScalar (flatImage (putScalars (allocFBTableBuf n) ops))
        (putScalars (allocFBTableBuf n) ops).vlen p.1 p.2.1 = p.2.2) ∧
    (∀ p ∈ ops, p.2.2 = 0 →
      (putScalars (allocFBTableBuf n) ops).offsets p.1 = 0 ∧
      fetchScalar (flatImage (putScalars (allocFBTableBuf n) ops))
        (putScalars (allocFBTableBuf n) ops).vlen p.1 p.2.1 = 0) := by
  have h16 : (2 : Nat) ^ 16 = 65536 := by norm_num
  have hInit : ScalarInv [] (allocFBTableBuf n) := by
    refine ⟨?_, ?_, ?_, ?_, ?_, ?_⟩
    · exact Nat.le_refl 4
    · show (4 : Nat) % 2 = 0
      rfl
    · exact Nat.le_refl 4
    · show (4 : Nat) ≤ 4 + 2 * n
      omega
    · intro p hp
      exact absurd hp (List.not_mem_nil p)
    · intro i _
      rfl
  obtain ⟨hInv, hna⟩ := putScalars_inv ops [] (allocFBTableBuf n) hInit
    (fun p hp => ⟨(hops p hp).1, (hops p hp).2.1⟩)
    (fun p hp => absurd hp (List.not_mem_nil p))
    hnd
  simp only [List.nil_append] at hInv
  obtain ⟨ht4, hvE, hv4, hvn, hentries, hzero⟩ := hInv
  have hnan : (putScalars (allocFBTableBuf n) ops).nattrs = n :=
    hna.trans rfl
  rw [hnan] at hvn
  set B := putScalars (allocFBTableBuf n) ops with hB
  have hvlt : B.vlen < 2 ^ 16 := by omega
  refine ⟨flatImage_root_read B hv4 (lt_trans hvlt (by norm_num)), ?_, ?_⟩
  · intro p hp hnz
    obtain ⟨g1, g2, g3, g4⟩ := hentries p hp hnz
    have hsz1 : 1 ≤ p.2.1 := (hops p hp).2.1
    have holt : B.offsets p.1 < 2 ^ 16 := by omega
    refine ⟨by omega, by omega, ?_⟩
    have hfp := fetchPointer_eq B p.1 hv4 hvE hvlt holt
    rw [if_pos g1, if_pos (by omega)] at hfp
    unfold fetchScalar
    rw [hfp]
    exact flatImage_table_read B (B.offsets p.1) p.2.1 p.2.2 g2
      (hops p hp).2.2 g4
  · intro p hp hz
    have hoe : B.offsets p.1 = 0 := by
      refine hzero p.1 ?_
      intro q hq hqz hqe
      have : q = p := List.inj_on_of_nodup_map hnd hq hp hqe
      rw [this] at hqz
      exact hqz hz
    refine ⟨hoe, ?_⟩
    have hfp := fetchPointer_eq B p.1 hv4 hvE hvlt (by rw [hoe]; omega)
    rw [hoe] at hfp
    simp only [ne_eq, not_true_eq_false, if_false] at hfp
    unfold fetchScalar
    by_cases hi : 4 + 2 * p.1 < B.vlen
    · rw [if_pos hi] at hfp
      rw [hfp]
      rfl
    · rw [if_neg hi] at hfp
      rw [hfp]
      rfl

theorem flatbuffer_scalar_roundtrip_witness :
    (putScalars (allocFBTableBuf 4)
      [(0, 4, 7), (1, 2, 0), (3, 8, 300)]).tlen < 2 ^ 16 ∧
    fetchScalar (flatImage (putScalars (allocFBTableBuf 4)
        [(0, 4, 7), (1, 2, 0), (3, 8, 300)]))
      (putScalars (allocFBTableBuf 4)
        [(0, 4, 7), (1, 2, 0), (3, 8, 300)]).vlen 3 8 = 300 :=
  ⟨by decide,
   ((flatbuffer_scalar_roundtrip 4 [(0, 4, 7), (1, 2, 0), (3, 8, 300)]
      (by decide) (by decide) (by decide) (by decide)).2.1
      (3, 8, 300) (by decide) (by decide)).2.2⟩

theorem take_succ_getD (l : List Cell) (i : Nat) (h : i < l.length) :
    l.take (i + 1) = l.take i ++ [l.getD i none] := by
  rw [List.take_succ, List.getElem?_eq_getElem h]
  simp [List.getD_eq_getElem?_getD, List.getElem?_eq_getElem h]

/-- C2: the offsets buffer of a varlena column holds n+1 32-bit values, the
first is 0, the (i+1)-th is the heap size after row i, offsets are
non-decreasing, and a null append repeats the current heap end without
writing heap bytes. -/
theorem varlena_offset_invariants (cells : List Cell) (hne : cells ≠ [])
    (hbound : heapBytes cells < 2 ^ 32) :
    (putList (initAttr .variable) 0 cells).values.usage = 4 * (cells.length + 1) ∧
    (putList (initAttr .variable) 0 cells).extra.usage = heapBytes cells ∧
    readLE (putList (initAttr .variable) 0 cells).values.bytes 0 4 = 0 ∧
    (∀ i, i ≤ cells.length →
      readLE (putList (initAttr .variable) 0 cells).values.bytes (4 * i) 4 =
        heapBytes (cells.take i)) ∧
    (∀ i, i < cells.length →
      readLE (putList (initAttr .variable) 0 cells).values.bytes (4 * i) 4 ≤
        readLE (putList (initAttr .variable) 0 cells).values.bytes
          (4 * (i + 1)) 4) ∧
    (∀ i, i < cells.length → cells.getD i none = none →
      readLE (putList (initAttr .variable) 0 cells).values.bytes
          (4 * (i + 1)) 4 =
        readLE (putList (initAttr .variable) 0 cells).values.bytes (4 * i) 4) := by
  obtain ⟨c, cs, rfl⟩ : ∃ c cs, cells = c :: cs := by
    cases cells with
    | nil => exact absurd rfl hne
    | cons c cs => exact ⟨c, cs, rfl⟩
  have hbase : VarInv [c] (put_value (initAttr .variable) 0 c).1 :=
    put_variable_base c
  have hinv := putVar_fold cs [c] (put_value (initAttr .variable) 0 c).1
    (by rw [put_value_kind]; rfl) (by simp) hbase
  simp only [List.singleton_append, List.length_cons, List.length_nil] at hinv
  have hfold : putList (initAttr .variable) 0 (c :: cs) =
      putList (put_value (initAttr .variable) 0 c).1 (0 + 1) cs := rfl
  rw [show (0 : Nat) + 1 = 1 from rfl] at hfold
  obtain ⟨h1, h2, h3, h4, h5⟩ := hinv
  rw [hfold]
  have hread : ∀ i, i ≤ (c :: cs).length →
      readLE (putList (put_value (initAttr .variable) 0 c).1 1 cs).values.bytes
        (4 * i) 4 = heapBytes ((c :: cs).take i) := by
    intro i hi
    exact h5 i hi (Nat.lt_of_le_of_lt (heapBytes_take_le _ i) hbound)
  refine ⟨h1, h2, ?_, hread, ?_, ?_⟩
  · have := hread 0 (by omega)
    simpa using this
  · intro i hi
    rw [hread i (by omega), hread (i + 1) (by omega),
      take_succ_getD _ i (by simpa using hi), heapBytes_append]
    omega
  · intro i hi hnull
    rw [hread i (by omega), hread (i + 1) (by omega),
      take_succ_getD _ i (by simpa using hi), hnull, heapBytes_append]
    simp [heapBytes]

theorem varlena_offset_invariants_witness :
    ([some [97], some [98, 98], none, some [99, 99, 99, 99]] : List Cell) ≠ [] ∧
    heapBytes [some [97], some [98, 98], none, some [99, 99, 99, 99]] < 2 ^ 32 ∧
    readLE (putList (initAttr .variable) 0
        [some [97], some [98, 98], none, some [99, 99, 99, 99]]).values.bytes
      (4 * 3) 4 =
      heapBytes (([some [97], some [98, 98], none, some [99, 99, 99, 99]] :
        List Cell).take 3) :=
  ⟨by decide, by decide,
    (varlena_offset_invariants _ (by decide) (by decide)).2.2.2.1 3 (by decide)⟩

/-- C6: for every column and every batch, after r+1 append calls the
nullmap bit i (0 ≤ i ≤ r) is 1 exactly when the i-th append of the batch
passed a non-null value, and nullcount equals the number of null appends in
the batch. -/
theorem null_bitmap_tracks_appends (a0 : SQLattribute) (h0 : a0.nullcount = 0)
    (cells : List Cell) :
    (∀ i, i < cells.length →
      sql_buffer_getbit (putList a0 0 cells).nullmap i =
        (cells.getD i none).isSome) ∧
    (putList a0 0 cells).nullcount = (cells.filter (·.isNone)).length := by
  obtain ⟨_, h2, h3⟩ := putList_spec cells a0 0
  refine ⟨fun i hi => ?_, by rw [h3, h0, Nat.zero_add]⟩
  have := h2 i hi
  simpa using this

theorem null_bitmap_tracks_appends_witness :
    (initAttr .inline32).nullcount = 0 ∧
    ((∀ i, i < ([some [0, 0, 0, 7], none] : List Cell).length →
      sql_buffer_getbit
          (putList (initAttr .inline32) 0 [some [0, 0, 0, 7], none]).nullmap i =
        (([some [0, 0, 0, 7], none] : List Cell).getD i none).isSome) ∧
    (putList (initAttr .inline32) 0 [some [0, 0, 0, 7], none]).nullcount =
      (([some [0, 0, 0, 7], none] : List Cell).filter (·.isNone)).length) :=
  ⟨rfl, null_bitmap_tracks_appends (initAttr .inline32) rfl _⟩

/-- C10: setbit/clrbit grow the capacity to at least BITMAPLEN(i+1) bytes
but never change the usage field; a buffer touched only by setbit/clrbit
(the null bitmap) keeps usage 0, so every size computed from nullmap.usage
is 0. -/
theorem bitops_grow_capacity_not_usage (buf : SQLbuffer) (i : Nat)
    (ops : List (Bool × Nat)) (h : buf.usage ≤ buf.length) :
    (sql_buffer_setbit buf i).usage = buf.usage ∧
    (sql_buffer_clrbit buf i).usage = buf.usage ∧
    BITMAPLEN (i + 1) ≤ (sql_buffer_setbit buf i).length ∧
    BITMAPLEN (i + 1) ≤ (sql_buffer_clrbit buf i).length ∧
    (applyBitOps sql_buffer_init ops).usage = 0 ∧
    ARROWALIGN (applyBitOps sql_buffer_init ops).usage = 0 ∧
    MAXALIGN (applyBitOps sql_buffer_init ops).usage = 0 := by
  have hu := applyBitOps_usage ops sql_buffer_init rfl
  refine ⟨setbit_usage buf i h, clrbit_usage buf i h, ?_, ?_, hu, ?_, ?_⟩
  · unfold sql_buffer_setbit
    exact expand_length_ge buf _
  · unfold sql_buffer_clrbit
    exact expand_length_ge buf _
  · rw [hu]; exact TYPEALIGN_zero 64 (by omega)
  · rw [hu]; exact TYPEALIGN_zero 8 (by omega)

theorem bitops_grow_capacity_not_usage_witness :
    sql_buffer_init.usage ≤ sql_buffer_init.length ∧
    ((sql_buffer_setbit sql_buffer_init 9).usage = sql_buffer_init.usage ∧
    (sql_buffer_clrbit sql_buffer_init 9).usage = sql_buffer_init.usage ∧
    BITMAPLEN 10 ≤ (sql_buffer_setbit sql_buffer_init 9).length ∧
    BITMAPLEN 10 ≤ (sql_buffer_clrbit sql_buffer_init 9).length ∧
    (applyBitOps sql_buffer_init [(true, 3), (false, 70)]).usage = 0 ∧
    ARROWALIGN (applyBitOps sql_buffer_init [(true, 3), (false, 70)]).usage = 0 ∧
    MAXALIGN (applyBitOps sql_buffer_init [(true, 3), (false, 70)]).usage = 0) :=
  ⟨Nat.le_refl 0,
    bitops_grow_capacity_not_usage sql_buffer_init 9 [(true, 3), (false, 70)]
      (Nat.le_refl 0)⟩

/-- C3: claimed for every handler, the append returns
align64(values.usage) + align64(extra.usage) + (nullcount>0 ?
align64(nullmap.usage) : 0).  The timestamp handler violates it: on the
first non-null append of a fresh timestamp column the formula gives 64 but
put_timestamp_value returns 0 (the C computes the sum into a dead local and
ends with return 0). -/
theorem timestamp_put_value_returns_zero :
    (put_value (initAttr .timestamp) 0 (some (List.replicate 8 0))).2 = 0 ∧
    (let a := (put_value (initAttr .timestamp) 0 (some (List.replicate 8 0))).1
     ARROWALIGN a.values.usage + ARROWALIGN a.extra.usage +
       (if a.nullcount > 0 then ARROWALIGN a.nullmap.usage else 0) = 64) ∧
    (put_value (initAttr .inline32) 0 (some [0, 0, 0, 7])).2 =
      (let a := (put_value (initAttr .inline32) 0 (some [0, 0, 0, 7])).1
       ARROWALIGN a.values.usage + ARROWALIGN a.extra.usage +
         (if a.nullcount > 0 then ARROWALIGN a.nullmap.usage else 0)) := by
  refine ⟨rfl, ?_, ?_⟩ <;> decide

/-- C9: a row whose appended size alone exceeds segment_sz while the batch
is still empty terminates ingestion with the fatal row-too-large error. -/
theorem single_row_over_threshold_fatal (table : SQLtable) (row : Row)
    (h0 : table.nitems = 0)
    (hover : (appendRowValues table.attrs table.nitems row).2 > table.segment_sz) :
    processRow table row = .error rowTooLargeMsg := by
  unfold processRow
  rw [processRowAux]
  simp only [h0] at hover ⊢
  simp [hover]

theorem single_row_over_threshold_fatal_witness :
    (⟨63, 0, [initAttr .inline8]⟩ : SQLtable).nitems = 0 ∧
    (appendRowValues (⟨63, 0, [initAttr .inline8]⟩ : SQLtable).attrs
        (⟨63, 0, [initAttr .inline8]⟩ : SQLtable).nitems [some [7]]).2 >
      (⟨63, 0, [initAttr .inline8]⟩ : SQLtable).segment_sz ∧
    processRow ⟨63, 0, [initAttr .inline8]⟩ [some [7]] = .error rowTooLargeMsg :=
  ⟨rfl, by decide,
    single_row_over_threshold_fatal ⟨63, 0, [initAttr .inline8]⟩ [some [7]]
      rfl (by decide)⟩

/-- C1: when appending row k drives the summed usage over segment_sz while
the batch already holds k ≥ 1 rows, the emitted batch reports exactly those
k rows, its per-column nullcounts are the pre-append ones (the null of row
k having been unwound), and row k is re-appended at row index 0 of the next
batch (unless even the fresh batch overflows, which is the fatal case). -/
theorem flush_unwinds_and_reappends (table : SQLtable) (row : Row)
    (hlen : row.length = table.attrs.length)
    (hover : (appendRowValues table.attrs table.nitems row).2 > table.segment_sz)
    (hk : table.nitems ≠ 0) :
    (fixupNullCount (appendRowValues table.attrs table.nitems row).1 row).map
        (·.nullcount) = table.attrs.map (·.nullcount) ∧
    processRow table row =
      (let attrs2 :=
        fixupNullCount (appendRowValues table.attrs table.nitems row).1 row
       let cleared := attrs2.map pgsql_clear_attribute
       let p2 := appendRowValues cleared 0 row
       if p2.2 > table.segment_sz then .error rowTooLargeMsg
       else .ok (⟨table.segment_sz, 1, p2.1⟩,
         some ⟨table.nitems, attrs2.map (·.nullcount)⟩)) := by
  refine ⟨fixup_append_nullcounts table.attrs table.nitems row hlen, ?_⟩
  unfold processRow
  rw [processRowAux]
  simp only [hover, if_pos, hk, if_neg, if_false]
  rw [processRowAux]
  split
  · simp
  · simp

theorem flush_unwinds_and_reappends_witness :
    ([some (List.replicate 64 98)] : Row).length =
      (⟨192, 1, [putList (initAttr .variable) 0 [some (List.replicate 65 97)]]⟩ :
        SQLtable).attrs.length ∧
    (appendRowValues
        (⟨192, 1, [putList (initAttr .variable) 0 [some (List.replicate 65 97)]]⟩ :
          SQLtable).attrs 1 [some (List.replicate 64 98)]).2 > 192 ∧
    (fixupNullCount
        (appendRowValues
          (⟨192, 1, [putList (initAttr .variable) 0 [some (List.replicate 65 97)]]⟩ :
            SQLtable).attrs 1 [some (List.replicate 64 98)]).1
        [some (List.replicate 64 98)]).map (·.nullcount) =
      (⟨192, 1, [putList (initAttr .variable) 0 [some (List.replicate 65 97)]]⟩ :
        SQLtable).attrs.map (·.nullcount) := by
  refine ⟨rfl, by decide, ?_⟩
  exact (flush_unwinds_and_reappends
    ⟨192, 1, [putList (initAttr .variable) 0 [some (List.replicate 65 97)]]⟩
    [some (List.replicate 64 98)] rfl (by decide) (by decide)).1
